import Mathlib

/-!
# Fuzzy connectedness segmentation of RGB images

A shallow embedding of `itkFuzzyConnectednessRGBImageFilter.h` and `itkRGBPixel.h`
together with the properties of their setters, getters and of the propagation
engine that the filter runs.

The scalar type of the C++ code (`double`, or the pixel component type) is a type
parameter: the setters and getters only move values around, so what is proved
about them holds for any representation of the scalars. `GetScalarValue`, which
computes in `double`, is embedded for unsigned integer components, with the
rounding of every step made explicit.
-/

namespace itk

/-! ## Vectors and matrices of three components -/

/-- A C array `T v[3]`. -/
abbrev Vec3 (α : Type) : Type := Fin 3 → α

/-- A C array `T m[3][3]`, row index first. -/
abbrev Mat3 (α : Type) : Type := Fin 3 → Fin 3 → α

/-- Modelled from the spec: the determinant of a 3x3 covariance matrix (the code
that computes `m_VarDet` and `m_DiffVarDet` is in
`itkFuzzyConnectednessRGBImageFilter.txx`, which is not among the sources),
expanded along the first row. -/
def det3 {α : Type} [CommRing α] (m : Mat3 α) : α :=
  m 0 0 * (m 1 1 * m 2 2 - m 1 2 * m 2 1)
    - m 0 1 * (m 1 0 * m 2 2 - m 1 2 * m 2 0)
    + m 0 2 * (m 1 0 * m 2 1 - m 1 1 * m 2 0)

/-! ## The filter's private fields (`itkFuzzyConnectednessRGBImageFilter.h`, 157-164) -/

/-- The private data members of `FuzzyConnectednessRGBImageFilter`. -/
structure FuzzyConnectednessRGBImageFilter (α : Type) where
  m_Mean : Vec3 α
  m_Var : Mat3 α
  m_DiffMean : Vec3 α
  m_DiffVar : Mat3 α
  m_VarInverse : Mat3 α
  m_DiffVarInverse : Mat3 α
  m_VarDet : α
  m_DiffVarDet : α

namespace FuzzyConnectednessRGBImageFilter

variable {α : Type}

/-- Modelled from the spec: `itkSetVectorMacro(name,type,3)` is defined in
`itkMacro.h`, which is not among the sources. The setter it generates looks for
the first component of `data` that differs from the stored one; when there is
one it copies all three components, and when there is none it skips the write. -/
def itkSetVectorMacro [DecidableEq α] (stored data : Vec3 α) : Vec3 α :=
  if data 0 = stored 0 ∧ data 1 = stored 1 ∧ data 2 = stored 2 then stored
  else ![data 0, data 1, data 2]

/-- `itkSetVectorMacro(Mean,double,3)`. -/
def SetMean [DecidableEq α] (s : FuzzyConnectednessRGBImageFilter α) (data : Vec3 α) :
    FuzzyConnectednessRGBImageFilter α :=
  { s with m_Mean := itkSetVectorMacro s.m_Mean data }

/-- `void GetMean(double omean[3])`: the filter afterwards, and `omean` afterwards. -/
def GetMean (s : FuzzyConnectednessRGBImageFilter α) (_omean : Vec3 α) :
    FuzzyConnectednessRGBImageFilter α × Vec3 α :=
  (s, ![s.m_Mean 0, s.m_Mean 1, s.m_Mean 2])

/-- `void SetVar(double ivar[3][3])`, the nine assignments in the order of the
source; the eighth one reads `ivar[2][2]`. -/
def SetVar (s : FuzzyConnectednessRGBImageFilter α) (ivar : Mat3 α) :
    FuzzyConnectednessRGBImageFilter α :=
  { s with m_Var := ![![ivar 0 0, ivar 0 1, ivar 0 2],
                      ![ivar 1 0, ivar 1 1, ivar 1 2],
                      ![ivar 2 0, ivar 2 2, ivar 2 2]] }

/-- `void GetVar(double ovar[3][3])`: the filter afterwards, and `ovar` afterwards. -/
def GetVar (s : FuzzyConnectednessRGBImageFilter α) (_ovar : Mat3 α) :
    FuzzyConnectednessRGBImageFilter α × Mat3 α :=
  (s, ![![s.m_Var 0 0, s.m_Var 0 1, s.m_Var 0 2],
        ![s.m_Var 1 0, s.m_Var 1 1, s.m_Var 1 2],
        ![s.m_Var 2 0, s.m_Var 2 1, s.m_Var 2 2]])

/-- `itkSetVectorMacro(DiffMean,double,3)`. -/
def SetDiffMean [DecidableEq α] (s : FuzzyConnectednessRGBImageFilter α) (data : Vec3 α) :
    FuzzyConnectednessRGBImageFilter α :=
  { s with m_DiffMean := itkSetVectorMacro s.m_DiffMean data }

/-- `void GetDiffMean(double odmean[3])`. -/
def GetDiffMean (s : FuzzyConnectednessRGBImageFilter α) (_odmean : Vec3 α) :
    FuzzyConnectednessRGBImageFilter α × Vec3 α :=
  (s, ![s.m_DiffMean 0, s.m_DiffMean 1, s.m_DiffMean 2])

/-- `void SetDiffVar(double idvar[3][3])`, the nine assignments in the order of
the source. -/
def SetDiffVar (s : FuzzyConnectednessRGBImageFilter α) (idvar : Mat3 α) :
    FuzzyConnectednessRGBImageFilter α :=
  { s with m_DiffVar := ![![idvar 0 0, idvar 0 1, idvar 0 2],
                          ![idvar 1 0, idvar 1 1, idvar 1 2],
                          ![idvar 2 0, idvar 2 1, idvar 2 2]] }

/-- `void GetDiffVar(double odvar[3][3])`. -/
def GetDiffVar (s : FuzzyConnectednessRGBImageFilter α) (_odvar : Mat3 α) :
    FuzzyConnectednessRGBImageFilter α × Mat3 α :=
  (s, ![![s.m_DiffVar 0 0, s.m_DiffVar 0 1, s.m_DiffVar 0 2],
        ![s.m_DiffVar 1 0, s.m_DiffVar 1 1, s.m_DiffVar 1 2],
        ![s.m_DiffVar 2 0, s.m_DiffVar 2 1, s.m_DiffVar 2 2]])

end FuzzyConnectednessRGBImageFilter

/-! ## `RGBPixel` (`itkRGBPixel.h`) -/

/-- `RGBPixel<TComponent>`, a subclass of `Array<TComponent,3>`: three
components. An index is a `Fin 3`; C++ leaves `operator[]` outside `0..2`
undefined. -/
structure RGBPixel (TComponent : Type) where
  data : Fin 3 → TComponent

namespace RGBPixel

variable {TComponent : Type}

/-- The assignment `this->operator[](c) = v`. -/
def assign (p : RGBPixel TComponent) (c : Fin 3) (v : TComponent) : RGBPixel TComponent :=
  ⟨fun d => if d = c then v else p.data d⟩

/-- `static int GetNumberOfComponents()`. -/
def GetNumberOfComponents : Int := 3

/-- `ComponentType GetNthComponent(int c) const`. -/
def GetNthComponent (p : RGBPixel TComponent) (c : Fin 3) : TComponent := p.data c

/-- `void SetNthComponent(int c, const ComponentType& v)`. -/
def SetNthComponent (p : RGBPixel TComponent) (c : Fin 3) (v : TComponent) :
    RGBPixel TComponent :=
  p.assign c v

/-- `void SetRed(ComponentType red)`. -/
def SetRed (p : RGBPixel TComponent) (red : TComponent) : RGBPixel TComponent :=
  p.assign 0 red

/-- `void SetGreen(ComponentType green)`. -/
def SetGreen (p : RGBPixel TComponent) (green : TComponent) : RGBPixel TComponent :=
  p.assign 1 green

/-- `void SetBlue(ComponentType blue)`. -/
def SetBlue (p : RGBPixel TComponent) (blue : TComponent) : RGBPixel TComponent :=
  p.assign 2 blue

/-- `void Set(ComponentType red, ComponentType green, ComponentType blue)`: three
assignments in a row. -/
def Set (p : RGBPixel TComponent) (red green blue : TComponent) : RGBPixel TComponent :=
  ((p.assign 0 red).assign 1 green).assign 2 blue

/-- `const ComponentType & GetRed(void) const`. -/
def GetRed (p : RGBPixel TComponent) : TComponent := p.data 0

/-- `const ComponentType & GetGreen(void) const`. -/
def GetGreen (p : RGBPixel TComponent) : TComponent := p.data 1

/-- `const ComponentType & GetBlue(void) const`. -/
def GetBlue (p : RGBPixel TComponent) : TComponent := p.data 2

end RGBPixel

/-! ## The scalar value of a pixel (`itkRGBPixel.h`, 87-94)

`GetScalarValue` computes in the C++ type `double`, taken here to be IEEE 754
binary64 with rounding to nearest, ties to even. A double that holds a
non-negative integer is represented by that integer; every value that arises
from components of at most 64 bits is far below the largest double, so no
overflow is modelled. -/

/-- The double nearest to the natural number `n`: `n` itself below `2 ^ 53`,
and otherwise `n` rounded to 53 significant bits, ties to even. -/
def roundToDouble (n : Nat) : Nat :=
  if n < 2 ^ 53 then n
  else
    if 2 * (n % 2 ^ (Nat.log2 n - 52)) < 2 ^ (Nat.log2 n - 52)
        ∨ (2 * (n % 2 ^ (Nat.log2 n - 52)) = 2 ^ (Nat.log2 n - 52)
          ∧ n / 2 ^ (Nat.log2 n - 52) % 2 = 0) then
      n / 2 ^ (Nat.log2 n - 52) * 2 ^ (Nat.log2 n - 52)
    else (n / 2 ^ (Nat.log2 n - 52) + 1) * 2 ^ (Nat.log2 n - 52)

/-- `static_cast<double>(c)` of an unsigned integer `c`. -/
def toDouble (c : Nat) : Nat := roundToDouble c

/-- The product `a * b` of two doubles that hold non-negative integers. -/
def mulDouble (a b : Nat) : Nat := roundToDouble (a * b)

/-- The sum `a + b` of two doubles that hold non-negative integers. -/
def addDouble (a b : Nat) : Nat := roundToDouble (a + b)

/-- Modelled from the spec: `vnl_math_sqrt` is declared in `vnl/vnl_math.h`, which
is not among the sources; it is taken to be the square root of the C library on
doubles, which is correctly rounded. The argument is a double that holds a
non-negative integer, and the result is the double `d.1 / 2 ^ d.2`, the
multiple of the spacing of the doubles around the root that is nearest to it. -/
def vnl_math_sqrt (x : Nat) : Nat × Nat :=
  if x = 0 then (0, 0)
  else if Nat.log2 (Nat.sqrt x) < 52 then
    if (2 * Nat.sqrt (x * 4 ^ (52 - Nat.log2 (Nat.sqrt x))) + 1) ^ 2
        < 4 * (x * 4 ^ (52 - Nat.log2 (Nat.sqrt x))) then
      (Nat.sqrt (x * 4 ^ (52 - Nat.log2 (Nat.sqrt x))) + 1, 52 - Nat.log2 (Nat.sqrt x))
    else (Nat.sqrt (x * 4 ^ (52 - Nat.log2 (Nat.sqrt x))), 52 - Nat.log2 (Nat.sqrt x))
  else
    if (2 * Nat.sqrt (x / 4 ^ (Nat.log2 (Nat.sqrt x) - 52)) + 1) ^ 2
          * 4 ^ (Nat.log2 (Nat.sqrt x) - 52) < 4 * x
        ∨ ((2 * Nat.sqrt (x / 4 ^ (Nat.log2 (Nat.sqrt x) - 52)) + 1) ^ 2
            * 4 ^ (Nat.log2 (Nat.sqrt x) - 52) = 4 * x
          ∧ Nat.sqrt (x / 4 ^ (Nat.log2 (Nat.sqrt x) - 52)) % 2 = 1) then
      ((Nat.sqrt (x / 4 ^ (Nat.log2 (Nat.sqrt x) - 52)) + 1)
        * 2 ^ (Nat.log2 (Nat.sqrt x) - 52), 0)
    else
      (Nat.sqrt (x / 4 ^ (Nat.log2 (Nat.sqrt x) - 52)) * 2 ^ (Nat.log2 (Nat.sqrt x) - 52), 0)

/-- `static_cast<ComponentType>(d)` of the non-negative double `d.1 / 2 ^ d.2` to
an unsigned integer type of `bits` bits: the fractional part is discarded, and
the conversion is undefined, here `none`, when the integer part does not fit. -/
def castToComponent (bits : Nat) (d : Nat × Nat) : Option Nat :=
  if d.1 / 2 ^ d.2 < 2 ^ bits then some (d.1 / 2 ^ d.2) else none

namespace RGBPixel

/-- Modelled from the spec: `Fill(v)` of the base class `Array<TComponent,3>`
(`itkArray.h` is not among the sources) sets every component to `v`. -/
def Fill {TComponent : Type} (v : TComponent) : RGBPixel TComponent :=
  ⟨fun _ => v⟩

/-- The default constructor `RGBPixel() {Fill(0);}`. -/
def construct {TComponent : Type} [Zero TComponent] : RGBPixel TComponent :=
  Fill 0

/-- `ComponentType GetScalarValue() const` for an unsigned integer component type
of `bits` bits. -/
def GetScalarValue (bits : Nat) (p : RGBPixel Nat) : Option Nat :=
  castToComponent bits
    (vnl_math_sqrt
      (addDouble
        (addDouble (mulDouble (toDouble (p.data 0)) (toDouble (p.data 0)))
          (mulDouble (toDouble (p.data 1)) (toDouble (p.data 1))))
        (mulDouble (toDouble (p.data 2)) (toDouble (p.data 2)))))

end RGBPixel

/-! ## The propagation engine and the controller

`GenerateData` is only declared in `itkFuzzyConnectednessRGBImageFilter.h`; its
body, like the base class `SimpleFuzzyConnectednessImageFilterBase` that holds
the seed, the threshold and the fuzzy scene, is not among the sources. The
definitions of this section follow sections 4.2 and 4.3 of the specification. -/

/-- Modelled from the spec: the largest connectedness score, the scores being
unsigned 16-bit values (`GenerateData` and the fuzzy scene are not among the
sources). -/
def MAX_SCORE : Nat := 65535

/-- Modelled from the spec: a coordinate `(x, y, z)` of the pixel grid (the image
classes are not among the sources). A 2D grid has depth 1 and `z = 0`. -/
abbrev Coordinate : Type := Nat × Nat × Nat

/-- Modelled from the spec: the dimensions of a dense rectangular grid (the image
classes are not among the sources). -/
structure GridSize where
  nx : Nat
  ny : Nat
  nz : Nat

/-- Modelled from the spec: a dense rectangular grid of `T`, addressed by
coordinate (the image classes are not among the sources). -/
structure Grid (T : Type) where
  size : GridSize
  data : Coordinate → T

/-- Modelled from the spec: a coordinate lies within the bounds of the grid (the
image classes are not among the sources). -/
def inBounds (s : GridSize) (p : Coordinate) : Prop :=
  p.1 < s.nx ∧ p.2.1 < s.ny ∧ p.2.2 < s.nz

instance (s : GridSize) (p : Coordinate) : Decidable (inBounds s p) := by
  unfold inBounds
  infer_instance

/-- Modelled from the spec: the direct neighbours of a pixel within the grid, four
in 2D and six in 3D, diagonal neighbours excluded (`GenerateData` is not among
the sources). -/
def neighbors (s : GridSize) (p : Coordinate) : List Coordinate :=
  (if 0 < p.1 then [(p.1 - 1, p.2.1, p.2.2)] else [])
    ++ (if p.1 + 1 < s.nx then [(p.1 + 1, p.2.1, p.2.2)] else [])
    ++ (if 0 < p.2.1 then [(p.1, p.2.1 - 1, p.2.2)] else [])
    ++ (if p.2.1 + 1 < s.ny then [(p.1, p.2.1 + 1, p.2.2)] else [])
    ++ (if 0 < p.2.2 then [(p.1, p.2.1, p.2.2 - 1)] else [])
    ++ (if p.2.2 + 1 < s.nz then [(p.1, p.2.1, p.2.2 + 1)] else [])

/-- Modelled from the spec: the state of a pixel during one run (`GenerateData`
is not among the sources). -/
inductive VisitedState where
  | Unvisited
  | Queued
  | Finalized
  deriving DecidableEq

/-- Modelled from the spec: the errors of section 7 (the classes that raise them
are not among the sources). -/
inductive SegmentationError where
  | InvalidModel
  | SeedOutOfBounds
  | NoResultAvailable
  deriving DecidableEq

/-- Modelled from the spec: what the engine holds during one run (`GenerateData`
is not among the sources): the connectedness grid, the state of every pixel,
the side table of the best tentative strength of every pixel, and the priority
structure, whose entries record a strength and a coordinate. -/
structure EngineState where
  connectedness : Coordinate → Nat
  visited : Coordinate → VisitedState
  best : Coordinate → Nat
  queue : List (Nat × Coordinate)

/-- Modelled from the spec: the entry of largest recorded strength in the priority
structure (`GenerateData` is not among the sources). -/
def maxEntry : List (Nat × Coordinate) → Option (Nat × Coordinate)
  | [] => none
  | e :: es =>
    match maxEntry es with
    | none => some e
    | some m => if m.1 ≤ e.1 then some e else some m

/-- Modelled from the spec: the priority structure yields the entry of largest
strength and loses it (`GenerateData` is not among the sources). -/
def popMax (q : List (Nat × Coordinate)) : Option ((Nat × Coordinate) × List (Nat × Coordinate)) :=
  match maxEntry q with
  | none => none
  | some e => some (e, q.erase e)

/-- Modelled from the spec: a neighbour `u` of the pixel `v` that was finalized
with strength `k` is considered (`GenerateData` is not among the sources). Its
tentative strength is `min k (affinity v u)`. An unvisited neighbour is queued
with it; a queued neighbour reached by a stronger path has its best strength
raised and a new entry inserted; a finalized neighbour is left alone. -/
def consider (aff : Coordinate → Coordinate → Nat) (v : Coordinate) (k : Nat)
    (st : EngineState) (u : Coordinate) : EngineState :=
  match st.visited u with
  | VisitedState.Unvisited =>
    { st with
      visited := Function.update st.visited u VisitedState.Queued
      best := Function.update st.best u (min k (aff v u))
      queue := (min k (aff v u), u) :: st.queue }
  | VisitedState.Queued =>
    if st.best u < min k (aff v u) then
      { st with
        best := Function.update st.best u (min k (aff v u))
        queue := (min k (aff v u), u) :: st.queue }
    else st
  | VisitedState.Finalized => st

/-- Modelled from the spec: all neighbours of a finalized pixel are considered in
turn (`GenerateData` is not among the sources). -/
def expand (aff : Coordinate → Coordinate → Nat) (v : Coordinate) (k : Nat)
    (st : EngineState) (nbrs : List Coordinate) : EngineState :=
  nbrs.foldl (consider aff v k) st

/-- Modelled from the spec: what happens to a popped entry (`GenerateData` is not
among the sources). An entry whose recorded strength is not the current best
tentative strength of its pixel is stale and is discarded; otherwise the pixel
becomes Finalized, its strength is written into the connectedness grid, and its
neighbours are considered. -/
def settle (s : GridSize) (aff : Coordinate → Coordinate → Nat) (st : EngineState)
    (e : Nat × Coordinate) : EngineState :=
  if st.best e.2 = e.1 then
    expand aff e.2 e.1
      { st with
        visited := Function.update st.visited e.2 VisitedState.Finalized
        connectedness := Function.update st.connectedness e.2 e.1 }
      (neighbors s e.2)
  else st

/-- Modelled from the spec: the initial state of a run (`GenerateData` is not among
the sources): the seed is Finalized with strength `MAX_SCORE`, every other pixel
is Unvisited with strength 0, and the neighbours of the seed are considered. -/
def initial (s : GridSize) (aff : Coordinate → Coordinate → Nat) (seed : Coordinate) :
    EngineState :=
  expand aff seed MAX_SCORE
    { connectedness := Function.update (fun _ => 0) seed MAX_SCORE
      visited := Function.update (fun _ => VisitedState.Unvisited) seed VisitedState.Finalized
      best := Function.update (fun _ => 0) seed MAX_SCORE
      queue := [] }
    (neighbors s seed)

/-- Modelled from the spec: the propagation loop (`GenerateData` is not among the
sources): pop the entry of largest strength and settle it, until the priority
structure is empty. The first argument bounds the number of pops. -/
def propagate (s : GridSize) (aff : Coordinate → Coordinate → Nat) :
    Nat → EngineState → EngineState
  | 0, st => st
  | n + 1, st =>
    match popMax st.queue with
    | none => st
    | some (e, rest) => propagate s aff n (settle s aff { st with queue := rest } e)

/-- Modelled from the spec: every coordinate within the bounds of the grid (the
image classes are not among the sources). -/
def allPixels (s : GridSize) : List Coordinate :=
  (List.range s.nx).flatMap fun x =>
    (List.range s.ny).flatMap fun y =>
      (List.range s.nz).map fun z => (x, y, z)

/-- Modelled from the spec: a bound on the number of pops of one run: every pixel
is finalized at most once and inserts at most six entries when it is
(`GenerateData` is not among the sources). -/
def popBound (s : GridSize) : Nat := 6 * (allPixels s).length + 6

/-- Modelled from the spec: the affinity of two pixels of the input is the
affinity that the model gives to their samples (`FuzzyAffinity` is only declared
in the header). -/
def pixelAffinity {Sample : Type} (input : Grid Sample) (affinity : Sample → Sample → Nat) :
    Coordinate → Coordinate → Nat :=
  fun a b => affinity (input.data a) (input.data b)

/-- Modelled from the spec: `run(input, affinityModel, seed)` of the
ConnectednessEngine (`GenerateData` is not among the sources). It fails with
`SeedOutOfBounds` when the seed lies outside the input, and otherwise returns the
connectedness grid left by the propagation. -/
def run {Sample : Type} (input : Grid Sample) (affinity : Sample → Sample → Nat)
    (seed : Coordinate) : Except SegmentationError (Grid Nat) :=
  if inBounds input.size seed then
    Except.ok
      { size := input.size
        data := (propagate input.size (pixelAffinity input affinity) (popBound input.size)
          (initial input.size (pixelAffinity input affinity) seed)).connectedness }
  else Except.error SegmentationError.SeedOutOfBounds

/-- Modelled from the spec: consecutive pixels of the list are direct neighbours
in the grid, each one a neighbour of the one before it (the notion of path of
the class documentation; `GenerateData` is not among the sources). -/
def isPath (s : GridSize) : List Coordinate → Prop
  | [] => True
  | [_] => True
  | a :: b :: rest => b ∈ neighbors s a ∧ isPath s (b :: rest)

/-- Modelled from the spec: a path from `a` to `b`, listed from `a` to `b`. -/
def isPathFromTo (s : GridSize) (a b : Coordinate) (path : List Coordinate) : Prop :=
  path.head? = some a ∧ path.getLast? = some b ∧ isPath s path

/-- Modelled from the spec: the strength of a path, the weakest affinity between
consecutive pixels along it; a path of one pixel has strength `MAX_SCORE`, the
strength of the seed at its own location (`GenerateData` is not among the
sources). -/
def pathStrength (aff : Coordinate → Coordinate → Nat) : List Coordinate → Nat
  | [] => MAX_SCORE
  | [_] => MAX_SCORE
  | a :: b :: rest => min (aff a b) (pathStrength aff (b :: rest))

/-- Modelled from the spec: the SegmentationController of section 4.3 (the base
class `SimpleFuzzyConnectednessImageFilterBase` is not among the sources): the
input grid, the seed, the affinity model when one is configured, the threshold,
and the connectedness grid of the last successful run. -/
structure SegmentationController (Sample : Type) where
  input : Grid Sample
  seed : Coordinate
  affinityModel : Option (Sample → Sample → Nat)
  threshold : Nat
  connectednessGrid : Option (Grid Nat)

namespace SegmentationController

variable {Sample : Type}

/-- Modelled from the spec: `execute()` (the base class is not among the sources):
checks that the seed is in bounds and that an affinity model is configured, then
runs the engine and stores the result. -/
def execute (c : SegmentationController Sample) :
    Except SegmentationError (SegmentationController Sample) :=
  if inBounds c.input.size c.seed then
    match c.affinityModel with
    | none => Except.error SegmentationError.InvalidModel
    | some affinity =>
      match run c.input affinity c.seed with
      | Except.ok g => Except.ok { c with connectednessGrid := some g }
      | Except.error e => Except.error e
  else Except.error SegmentationError.SeedOutOfBounds

/-- Modelled from the spec: `setThreshold(value)`, a pure setter (the base class
is not among the sources). -/
def setThreshold (c : SegmentationController Sample) (value : Nat) :
    SegmentationController Sample :=
  { c with threshold := value }

/-- Modelled from the spec: `getConnectednessGrid()`, the raw scores of the last
successful run (the base class is not among the sources). -/
def getConnectednessGrid (c : SegmentationController Sample) :
    Except SegmentationError (Grid Nat) :=
  match c.connectednessGrid with
  | none => Except.error SegmentationError.NoResultAvailable
  | some g => Except.ok g

/-- Modelled from the spec: `getBinaryMask()`, computed afresh from the
connectedness grid and the current threshold as
`mask[p] = (connectedness[p] >= threshold)` (the base class is not among the
sources). -/
def getBinaryMask (c : SegmentationController Sample) :
    Except SegmentationError (Grid Bool) :=
  match c.connectednessGrid with
  | none => Except.error SegmentationError.NoResultAvailable
  | some g => Except.ok { size := g.size, data := fun p => decide (c.threshold ≤ g.data p) }

end SegmentationController

/-! ## Invariants of the propagation -/

/-- A walk from the seed: `Walk s aff seed v w` holds when some sequence of
neighbour steps leads from the seed to `v` with weakest link `w`. -/
inductive Walk (s : GridSize) (aff : Coordinate → Coordinate → Nat) (seed : Coordinate) :
    Coordinate → Nat → Prop
  | base : Walk s aff seed seed MAX_SCORE
  | step {v u : Coordinate} {w : Nat} :
      Walk s aff seed v w → u ∈ neighbors s v → Walk s aff seed u (min w (aff v u))

/-- The neighbour `u` of the finalized pixel `w` has been reached with at least
the strength that the link from `w` gives. -/
def Relaxed (aff : Coordinate → Coordinate → Nat) (st : EngineState) (w u : Coordinate) : Prop :=
  st.visited u ≠ VisitedState.Unvisited ∧ min (st.best w) (aff w u) ≤ st.best u

/-- What holds of the state at every moment of a run, also while the neighbours
of a pixel are being considered. -/
structure Core (s : GridSize) (aff : Coordinate → Coordinate → Nat) (seed : Coordinate)
    (st : EngineState) : Prop where
  qvis : ∀ e ∈ st.queue, st.visited e.2 ≠ VisitedState.Unvisited
  qle : ∀ e ∈ st.queue, e.1 ≤ st.best e.2
  qnodup : st.queue.Nodup
  qfin : ∀ e ∈ st.queue, st.visited e.2 = VisitedState.Finalized → e.1 < st.best e.2
  qlive : ∀ v, st.visited v = VisitedState.Queued → (st.best v, v) ∈ st.queue
  qbound : ∀ e ∈ st.queue, inBounds s e.2
  finmono : ∀ v, st.visited v = VisitedState.Finalized → ∀ e ∈ st.queue, e.1 ≤ st.best v
  conn_eq : ∀ v, st.visited v = VisitedState.Finalized → st.connectedness v = st.best v
  walk : ∀ v, st.visited v ≠ VisitedState.Unvisited → Walk s aff seed v (st.best v)
  seed_fin : st.visited seed = VisitedState.Finalized
  seed_best : st.best seed = MAX_SCORE

/-- What holds while the neighbours of `v`, finalized with strength `k`, are being
considered and those of `pend` are still to come. -/
structure Mid (s : GridSize) (aff : Coordinate → Coordinate → Nat) (seed : Coordinate)
    (v : Coordinate) (k : Nat) (pend : List Coordinate) (st : EngineState) : Prop where
  core : Core s aff seed st
  vfin : st.visited v = VisitedState.Finalized
  vbest : st.best v = k
  vbound : inBounds s v
  kle : ∀ w, st.visited w = VisitedState.Finalized → k ≤ st.best w
  pend_nbr : ∀ u ∈ pend, u ∈ neighbors s v
  bell : ∀ w, st.visited w = VisitedState.Finalized → ∀ u ∈ neighbors s w,
    (w = v ∧ u ∈ pend) ∨ Relaxed aff st w u

/-- What holds between two pops: every link out of a finalized pixel is relaxed. -/
structure Inv (s : GridSize) (aff : Coordinate → Coordinate → Nat) (seed : Coordinate)
    (st : EngineState) : Prop where
  core : Core s aff seed st
  bell : ∀ w, st.visited w = VisitedState.Finalized → ∀ u ∈ neighbors s w, Relaxed aff st w u

/-- The number of pixels of the grid that are not Finalized. -/
def unfinalized (s : GridSize) (st : EngineState) : Nat :=
  (allPixels s).countP fun p => decide (st.visited p ≠ VisitedState.Finalized)

/-- A quantity that every pop decreases. -/
def potential (s : GridSize) (st : EngineState) : Nat :=
  st.queue.length + 6 * unfinalized s st

/-! ## Concrete inputs used below -/

/-- The matrix with rows `1 2 3`, `4 5 6`, `7 8 9`. -/
def counting : Mat3 ℚ := ![![1, 2, 3], ![4, 5, 6], ![7, 8, 9]]

/-- The identity matrix. -/
def identity3 : Mat3 ℚ := ![![1, 0, 0], ![0, 1, 0], ![0, 0, 1]]

/-- Twice the identity matrix, whose determinant is 8. -/
def twice3 : Mat3 ℚ := ![![2, 0, 0], ![0, 2, 0], ![0, 0, 2]]

/-- A symmetric matrix, with rows `1 2 3`, `2 4 5`, `3 5 6`. -/
def symmetric3 : Mat3 ℚ := ![![1, 2, 3], ![2, 4, 5], ![3, 5, 6]]

/-- The zero matrix, whose determinant is 0. -/
def zero3 : Mat3 ℚ := ![![0, 0, 0], ![0, 0, 0], ![0, 0, 0]]

/-- A filter whose two covariances are the identity, with inverses and
determinants to match, and whose means are zero. -/
def unitFilter : FuzzyConnectednessRGBImageFilter ℚ where
  m_Mean := ![0, 0, 0]
  m_Var := identity3
  m_DiffMean := ![0, 0, 0]
  m_DiffVar := identity3
  m_VarInverse := identity3
  m_DiffVarInverse := identity3
  m_VarDet := 1
  m_DiffVarDet := 1

/-- A 2x2 grid of one slice whose sample at `(x, y, 0)` is `10 * x + y`. -/
def sampleGrid : Grid Nat where
  size := { nx := 2, ny := 2, nz := 1 }
  data := fun p => 10 * p.1 + p.2.1

/-- An affinity of scalar samples: 100 less the distance of the two samples. -/
def sampleAffinity (a b : Nat) : Nat := 100 - (max a b - min a b)

/-- A controller over `sampleGrid`, seeded at the origin, that has not run yet. -/
def sampleController : SegmentationController Nat where
  input := sampleGrid
  seed := (0, 0, 0)
  affinityModel := some sampleAffinity
  threshold := 0
  connectednessGrid := none

/-- A pixel of 64-bit components whose red component is `2 ^ 53 + 1`. -/
def widePixel : RGBPixel Nat := ⟨![9007199254740993, 0, 0]⟩

/-- A pixel of 32-bit components whose squares add up to `(2 ^ 26 + 1) ^ 2 - 1`. -/
def nearSquarePixel : RGBPixel Nat := ⟨![67100672, 1048576, 8192]⟩

/-- The pixel `(3, 4, 0)`. -/
def pythagoreanPixel : RGBPixel Nat := ⟨![3, 4, 0]⟩

/-! # Theorems -/

/-- The explicit expansion `det3` is the determinant of the matrix. -/
theorem det3_eq_det {α : Type} [CommRing α] (m : Mat3 α) :
    det3 m = Matrix.det (Matrix.of m) := by
  rw [Matrix.det_fin_three]
  simp only [det3, Matrix.of_apply]
  ring

/-! ## The priority structure -/

theorem maxEntry_eq_none {q : List (Nat × Coordinate)} (h : maxEntry q = none) : q = [] := by
  cases q with
  | nil => rfl
  | cons e es =>
    simp only [maxEntry] at h
    split at h
    · cases h
    · split at h <;> cases h

theorem maxEntry_mem : ∀ {q : List (Nat × Coordinate)} {e : Nat × Coordinate},
    maxEntry q = some e → e ∈ q ∧ ∀ e' ∈ q, e'.1 ≤ e.1
  | [], e, h => by simp [maxEntry] at h
  | a :: es, e, h => by
    simp only [maxEntry] at h
    split at h
    · rename_i hn
      have hes := maxEntry_eq_none hn
      subst hes
      cases h
      simp
    · rename_i m hm
      obtain ⟨hmem, hmax⟩ := maxEntry_mem hm
      split at h
      · rename_i hle
        cases h
        refine ⟨List.mem_cons_self _ _, ?_⟩
        intro e' he'
        rcases List.mem_cons.1 he' with rfl | he'
        · exact le_refl _
        · exact le_trans (hmax e' he') hle
      · rename_i hle
        cases h
        refine ⟨List.mem_cons_of_mem _ hmem, ?_⟩
        intro e' he'
        rcases List.mem_cons.1 he' with rfl | he'
        · omega
        · exact hmax e' he'

theorem popMax_eq_none {q : List (Nat × Coordinate)} (h : popMax q = none) : q = [] := by
  unfold popMax at h
  split at h
  · rename_i hn
    exact maxEntry_eq_none hn
  · cases h

theorem popMax_eq_some {q rest : List (Nat × Coordinate)} {e : Nat × Coordinate}
    (h : popMax q = some (e, rest)) :
    e ∈ q ∧ rest = q.erase e ∧ ∀ e' ∈ q, e'.1 ≤ e.1 := by
  unfold popMax at h
  split at h
  · cases h
  · rename_i m hm
    cases h
    exact ⟨(maxEntry_mem hm).1, rfl, (maxEntry_mem hm).2⟩

/-! ## The grid -/

theorem mem_neighbors {s : GridSize} {p u : Coordinate} :
    u ∈ neighbors s p ↔
      (0 < p.1 ∧ u = (p.1 - 1, p.2.1, p.2.2)) ∨ (p.1 + 1 < s.nx ∧ u = (p.1 + 1, p.2.1, p.2.2))
        ∨ (0 < p.2.1 ∧ u = (p.1, p.2.1 - 1, p.2.2))
        ∨ (p.2.1 + 1 < s.ny ∧ u = (p.1, p.2.1 + 1, p.2.2))
        ∨ (0 < p.2.2 ∧ u = (p.1, p.2.1, p.2.2 - 1))
        ∨ (p.2.2 + 1 < s.nz ∧ u = (p.1, p.2.1, p.2.2 + 1)) := by
  unfold neighbors
  simp only [List.mem_append]
  constructor
  · intro h
    rcases h with ((((h | h) | h) | h) | h) | h <;> split at h <;> simp at h <;> simp [*]
  · intro h
    rcases h with ⟨h, rfl⟩ | ⟨h, rfl⟩ | ⟨h, rfl⟩ | ⟨h, rfl⟩ | ⟨h, rfl⟩ | ⟨h, rfl⟩ <;> simp [h]

theorem neighbors_inBounds {s : GridSize} {p u : Coordinate} (hp : inBounds s p)
    (hu : u ∈ neighbors s p) : inBounds s u := by
  obtain ⟨h1, h2, h3⟩ := hp
  rcases mem_neighbors.1 hu with ⟨h, rfl⟩ | ⟨h, rfl⟩ | ⟨h, rfl⟩ | ⟨h, rfl⟩ | ⟨h, rfl⟩ | ⟨h, rfl⟩ <;>
    refine ⟨?_, ?_, ?_⟩ <;> simp only <;> omega

theorem neighbors_length (s : GridSize) (p : Coordinate) : (neighbors s p).length ≤ 6 := by
  unfold neighbors
  simp only [List.length_append]
  have h : ∀ (c : Prop) [Decidable c] (a : Coordinate), (if c then [a] else []).length ≤ 1 := by
    intro c _ a
    split <;> simp
  have h1 := h (0 < p.1) (p.1 - 1, p.2.1, p.2.2)
  have h2 := h (p.1 + 1 < s.nx) (p.1 + 1, p.2.1, p.2.2)
  have h3 := h (0 < p.2.1) (p.1, p.2.1 - 1, p.2.2)
  have h4 := h (p.2.1 + 1 < s.ny) (p.1, p.2.1 + 1, p.2.2)
  have h5 := h (0 < p.2.2) (p.1, p.2.1, p.2.2 - 1)
  have h6 := h (p.2.2 + 1 < s.nz) (p.1, p.2.1, p.2.2 + 1)
  omega

theorem mem_allPixels {s : GridSize} {p : Coordinate} : p ∈ allPixels s ↔ inBounds s p := by
  obtain ⟨x, y, z⟩ := p
  simp only [allPixels, List.mem_flatMap, List.mem_map, List.mem_range, inBounds, Prod.mk.injEq]
  constructor
  · rintro ⟨a, ha, b, hb, c, hc, rfl, rfl, rfl⟩
    exact ⟨ha, hb, hc⟩
  · rintro ⟨ha, hb, hc⟩
    exact ⟨x, ha, y, hb, z, hc, rfl, rfl, rfl⟩

/-! ## Considering the neighbours of a finalized pixel -/

theorem update_visited_ne_unvisited {st : EngineState} {u x : Coordinate}
    (h : st.visited x ≠ VisitedState.Unvisited ∨ x = u) :
    Function.update st.visited u VisitedState.Queued x ≠ VisitedState.Unvisited := by
  by_cases hx : x = u
  · subst hx
    simp
  · rw [Function.update_noteq hx]
    rcases h with h | h
    · exact h
    · exact absurd h hx

theorem update_visited_finalized {st : EngineState} {u x : Coordinate}
    (hu : st.visited u ≠ VisitedState.Finalized) :
    Function.update st.visited u VisitedState.Queued x = VisitedState.Finalized
      ↔ st.visited x = VisitedState.Finalized := by
  by_cases hx : x = u
  · subst hx
    simp [hu]
  · rw [Function.update_noteq hx]

/-- Queuing `u` with strength `t`, when no entry of `u` is as strong and `u` is not
Finalized, keeps what holds during the consideration of neighbours. -/
theorem Mid.push {s : GridSize} {aff : Coordinate → Coordinate → Nat} {seed v u : Coordinate}
    {k : Nat} {pend : List Coordinate} {st : EngineState} (t : Nat)
    (h : Mid s aff seed v k (u :: pend) st) (ht : t = min k (aff v u))
    (hnf : st.visited u ≠ VisitedState.Finalized)
    (hq : ∀ e ∈ st.queue, e.2 = u → e.1 < t)
    (hb : st.visited u ≠ VisitedState.Unvisited → st.best u ≤ t) :
    Mid s aff seed v k pend
      { st with
        visited := Function.update st.visited u VisitedState.Queued
        best := Function.update st.best u t
        queue := (t, u) :: st.queue } := by
  have hu_nbr : u ∈ neighbors s v := h.pend_nbr u (List.mem_cons_self _ _)
  have hne : ∀ w, st.visited w = VisitedState.Finalized → w ≠ u := by
    intro w hw hwu
    exact hnf (hwu ▸ hw)
  have hvu : v ≠ u := hne v h.vfin
  have hwalk : Walk s aff seed u t := by
    have hv := h.core.walk v (by rw [h.vfin]; decide)
    rw [h.vbest] at hv
    rw [ht]
    exact Walk.step hv hu_nbr
  have hbest_mono : ∀ x, st.visited x ≠ VisitedState.Unvisited →
      st.best x ≤ Function.update st.best u t x := by
    intro x hx
    by_cases hxu : x = u
    · subst hxu
      simpa using hb hx
    · rw [Function.update_noteq hxu]
  refine ⟨⟨?_, ?_, ?_, ?_, ?_, ?_, ?_, ?_, ?_, ?_, ?_⟩, ?_, ?_, h.vbound, ?_, ?_, ?_⟩
  · -- qvis
    intro e he
    rcases List.mem_cons.1 he with rfl | he
    · exact update_visited_ne_unvisited (Or.inr rfl)
    · exact update_visited_ne_unvisited (Or.inl (h.core.qvis e he))
  · -- qle
    intro e he
    rcases List.mem_cons.1 he with rfl | he
    · simp
    · exact le_trans (h.core.qle e he) (hbest_mono _ (h.core.qvis e he))
  · -- qnodup
    refine List.nodup_cons.2 ⟨?_, h.core.qnodup⟩
    intro hmem
    exact absurd (hq _ hmem rfl) (lt_irrefl _)
  · -- qfin
    intro e he hfin
    have hfin' := (update_visited_finalized hnf).1 hfin
    rcases List.mem_cons.1 he with rfl | he
    · exact absurd hfin' hnf
    · have := h.core.qfin e he hfin'
      simp only
      rw [Function.update_noteq (hne _ hfin')]
      exact this
  · -- qlive
    intro w hw
    by_cases hwu : w = u
    · subst hwu
      simp
    · simp only [Function.update_noteq hwu] at hw ⊢
      exact List.mem_cons_of_mem _ (h.core.qlive w hw)
  · -- qbound
    intro e he
    rcases List.mem_cons.1 he with rfl | he
    · exact neighbors_inBounds h.vbound hu_nbr
    · exact h.core.qbound e he
  · -- finmono
    intro w hw e he
    have hw' := (update_visited_finalized hnf).1 hw
    simp only
    rw [Function.update_noteq (hne _ hw')]
    rcases List.mem_cons.1 he with rfl | he
    · have := h.kle w hw'
      simp only [ht]
      exact le_trans (Nat.min_le_left _ _) this
    · exact h.core.finmono w hw' e he
  · -- conn_eq
    intro w hw
    have hw' := (update_visited_finalized hnf).1 hw
    simp only
    rw [Function.update_noteq (hne _ hw')]
    exact h.core.conn_eq w hw'
  · -- walk
    intro x hx
    by_cases hxu : x = u
    · subst hxu
      simpa using hwalk
    · simp only [Function.update_noteq hxu] at hx ⊢
      exact h.core.walk x hx
  · -- seed_fin
    exact (update_visited_finalized hnf).2 h.core.seed_fin
  · -- seed_best
    simp only
    rw [Function.update_noteq (hne _ h.core.seed_fin)]
    exact h.core.seed_best
  · -- vfin
    exact (update_visited_finalized hnf).2 h.vfin
  · -- vbest
    simp only
    rw [Function.update_noteq hvu]
    exact h.vbest
  · -- kle
    intro w hw
    have hw' := (update_visited_finalized hnf).1 hw
    simp only
    rw [Function.update_noteq (hne _ hw')]
    exact h.kle w hw'
  · -- pend_nbr
    intro x hx
    exact h.pend_nbr x (List.mem_cons_of_mem _ hx)
  · -- bell
    intro w hw x hx
    have hw' := (update_visited_finalized hnf).1 hw
    have hrel : Relaxed aff st w x ∨ (w = v ∧ x = u) →
        Relaxed aff { st with
          visited := Function.update st.visited u VisitedState.Queued
          best := Function.update st.best u t
          queue := (t, u) :: st.queue } w x := by
      intro hcase
      unfold Relaxed
      simp only
      rw [Function.update_noteq (hne _ hw')]
      rcases hcase with ⟨h1, h2⟩ | ⟨rfl, rfl⟩
      · exact ⟨update_visited_ne_unvisited (Or.inl h1), le_trans h2 (hbest_mono x h1)⟩
      · refine ⟨update_visited_ne_unvisited (Or.inr rfl), ?_⟩
        simp [h.vbest, ht]
    rcases h.bell w hw' x hx with ⟨rfl, hmem⟩ | hr
    · rcases List.mem_cons.1 hmem with rfl | hmem
      · exact Or.inr (hrel (Or.inr ⟨rfl, rfl⟩))
      · exact Or.inl ⟨rfl, hmem⟩
    · exact Or.inr (hrel (Or.inl hr))

/-- A neighbour that is already reached with at least the strength of the link
needs no change. -/
theorem Mid.skip {s : GridSize} {aff : Coordinate → Coordinate → Nat} {seed v u : Coordinate}
    {k : Nat} {pend : List Coordinate} {st : EngineState}
    (h : Mid s aff seed v k (u :: pend) st)
    (hvis : st.visited u ≠ VisitedState.Unvisited)
    (hle : min k (aff v u) ≤ st.best u) :
    Mid s aff seed v k pend st := by
  refine ⟨h.core, h.vfin, h.vbest, h.vbound, h.kle, ?_, ?_⟩
  · intro x hx
    exact h.pend_nbr x (List.mem_cons_of_mem _ hx)
  · intro w hw x hx
    rcases h.bell w hw x hx with ⟨rfl, hmem⟩ | hr
    · rcases List.mem_cons.1 hmem with rfl | hmem
      · refine Or.inr ⟨hvis, ?_⟩
        rw [h.vbest]
        exact hle
      · exact Or.inl ⟨rfl, hmem⟩
    · exact Or.inr hr

theorem Mid.consider {s : GridSize} {aff : Coordinate → Coordinate → Nat} {seed v u : Coordinate}
    {k : Nat} {pend : List Coordinate} {st : EngineState}
    (h : Mid s aff seed v k (u :: pend) st) :
    Mid s aff seed v k pend (consider aff v k st u) := by
  unfold itk.consider
  split
  · rename_i hvis
    refine Mid.push (min k (aff v u)) h rfl (by rw [hvis]; decide) ?_ ?_
    · intro e he heu
      exact absurd (heu ▸ hvis) (h.core.qvis e he)
    · intro hne
      exact absurd hvis hne
  · rename_i hvis
    split
    · rename_i hlt
      have hpush := Mid.push (min k (aff v u)) h rfl (by rw [hvis]; decide) (by
        intro e he heu
        have := h.core.qle e he
        rw [heu] at this
        omega) (fun _ => le_of_lt hlt)
      have hupd : Function.update st.visited u VisitedState.Queued = st.visited := by
        rw [← hvis]
        exact Function.update_eq_self u st.visited
      rw [hupd] at hpush
      exact hpush
    · rename_i hlt
      exact Mid.skip h (by rw [hvis]; decide) (by omega)
  · rename_i hvis
    refine Mid.skip h (by rw [hvis]; decide) ?_
    exact le_trans (Nat.min_le_left _ _) (h.kle u hvis)

theorem Mid.expand {s : GridSize} {aff : Coordinate → Coordinate → Nat} {seed v : Coordinate}
    {k : Nat} : ∀ (nbrs : List Coordinate) {st : EngineState},
    Mid s aff seed v k nbrs st → Mid s aff seed v k [] (expand aff v k st nbrs)
  | [], _, h => h
  | _ :: us, _, h => Mid.expand us (Mid.consider h)

theorem Mid.inv {s : GridSize} {aff : Coordinate → Coordinate → Nat} {seed v : Coordinate}
    {k : Nat} {st : EngineState} (h : Mid s aff seed v k [] st) : Inv s aff seed st := by
  refine ⟨h.core, ?_⟩
  intro w hw u hu
  rcases h.bell w hw u hu with ⟨_, hmem⟩ | hr
  · cases hmem
  · exact hr

/-! ## Popping an entry -/

theorem Inv.discard {s : GridSize} {aff : Coordinate → Coordinate → Nat} {seed : Coordinate}
    {st : EngineState} {e : Nat × Coordinate} (h : Inv s aff seed st)
    (hstale : st.best e.2 ≠ e.1) :
    Inv s aff seed { st with queue := st.queue.erase e } := by
  have hsub : ∀ e' ∈ st.queue.erase e, e' ∈ st.queue := fun e' he' => List.mem_of_mem_erase he'
  refine ⟨⟨?_, ?_, ?_, ?_, ?_, ?_, ?_, h.core.conn_eq, h.core.walk, h.core.seed_fin,
    h.core.seed_best⟩, h.bell⟩
  · exact fun e' he' => h.core.qvis e' (hsub e' he')
  · exact fun e' he' => h.core.qle e' (hsub e' he')
  · exact h.core.qnodup.erase e
  · exact fun e' he' => h.core.qfin e' (hsub e' he')
  · intro w hw
    refine (List.mem_erase_of_ne ?_).2 (h.core.qlive w hw)
    intro heq
    apply hstale
    rw [← heq]
  · exact fun e' he' => h.core.qbound e' (hsub e' he')
  · exact fun w hw e' he' => h.core.finmono w hw e' (hsub e' he')

theorem Inv.entry_queued {s : GridSize} {aff : Coordinate → Coordinate → Nat}
    {seed : Coordinate} {st : EngineState} {e : Nat × Coordinate} (h : Inv s aff seed st)
    (hmem : e ∈ st.queue) (hfresh : st.best e.2 = e.1) :
    st.visited e.2 = VisitedState.Queued := by
  have h1 := h.core.qvis e hmem
  have h2 := h.core.qfin e hmem
  cases hv : st.visited e.2 with
  | Unvisited => exact absurd hv h1
  | Queued => rfl
  | Finalized =>
    have := h2 hv
    omega

theorem Inv.finalize {s : GridSize} {aff : Coordinate → Coordinate → Nat} {seed : Coordinate}
    {st : EngineState} {e : Nat × Coordinate} (h : Inv s aff seed st)
    (hmem : e ∈ st.queue) (hmax : ∀ e' ∈ st.queue, e'.1 ≤ e.1) (hfresh : st.best e.2 = e.1) :
    Mid s aff seed e.2 e.1 (neighbors s e.2)
      { st with
        queue := st.queue.erase e
        visited := Function.update st.visited e.2 VisitedState.Finalized
        connectedness := Function.update st.connectedness e.2 e.1 } := by
  have hsub : ∀ e' ∈ st.queue.erase e, e' ∈ st.queue := fun e' he' => List.mem_of_mem_erase he'
  have hq := h.entry_queued hmem hfresh
  have hnu : ∀ x, st.visited x ≠ VisitedState.Unvisited →
      Function.update st.visited e.2 VisitedState.Finalized x ≠ VisitedState.Unvisited := by
    intro x hx
    by_cases hxv : x = e.2
    · subst hxv
      simp
    · rw [Function.update_noteq hxv]
      exact hx
  have hun : ∀ x, Function.update st.visited e.2 VisitedState.Finalized x
      ≠ VisitedState.Unvisited → st.visited x ≠ VisitedState.Unvisited := by
    intro x hx
    by_cases hxv : x = e.2
    · subst hxv
      rw [hq]
      decide
    · rw [Function.update_noteq hxv] at hx
      exact hx
  have hfin : ∀ x, Function.update st.visited e.2 VisitedState.Finalized x
      = VisitedState.Finalized → x = e.2 ∨ st.visited x = VisitedState.Finalized := by
    intro x hx
    by_cases hxv : x = e.2
    · exact Or.inl hxv
    · rw [Function.update_noteq hxv] at hx
      exact Or.inr hx
  refine ⟨⟨?_, ?_, ?_, ?_, ?_, ?_, ?_, ?_, ?_, ?_, h.core.seed_best⟩, ?_, hfresh,
    h.core.qbound e hmem, ?_, fun u hu => hu, ?_⟩
  · exact fun e' he' => hnu _ (h.core.qvis e' (hsub e' he'))
  · exact fun e' he' => h.core.qle e' (hsub e' he')
  · exact h.core.qnodup.erase e
  · -- qfin
    intro e' he' hf
    rcases hfin _ hf with hv | hv
    · have hle := h.core.qle e' (hsub e' he')
      have hne : e'.1 ≠ e.1 := by
        intro h1
        have : e' = e := Prod.ext h1 hv
        rw [this] at he'
        exact h.core.qnodup.not_mem_erase he'
      simp only
      rw [hv] at hle ⊢
      omega
    · exact h.core.qfin e' (hsub e' he') hv
  · -- qlive
    intro w hw
    have hwv : w ≠ e.2 := by
      intro hwv
      subst hwv
      simp at hw
    simp only [Function.update_noteq hwv] at hw
    refine (List.mem_erase_of_ne ?_).2 (h.core.qlive w hw)
    intro heq
    apply hwv
    rw [← heq]
  · exact fun e' he' => h.core.qbound e' (hsub e' he')
  · -- finmono
    intro w hw e' he'
    rcases hfin _ hw with hv | hv
    · subst hv
      simp only
      rw [hfresh]
      exact hmax e' (hsub e' he')
    · exact h.core.finmono w hv e' (hsub e' he')
  · -- conn_eq
    intro w hw
    by_cases hwv : w = e.2
    · subst hwv
      simp [hfresh]
    · simp only [Function.update_noteq hwv] at hw ⊢
      exact h.core.conn_eq w hw
  · exact fun x hx => h.core.walk x (hun x hx)
  · -- seed_fin
    by_cases hsv : seed = e.2
    · show Function.update st.visited e.2 VisitedState.Finalized seed = VisitedState.Finalized
      rw [hsv, Function.update_same]
    · simp only [Function.update_noteq hsv]
      exact h.core.seed_fin
  · -- vfin
    simp
  · -- kle
    intro w hw
    rcases hfin _ hw with hv | hv
    · subst hv
      exact le_of_eq hfresh.symm
    · exact h.core.finmono w hv e hmem
  · -- bell
    intro w hw u hu
    by_cases hwv : w = e.2
    · exact Or.inl ⟨hwv, hwv ▸ hu⟩
    · simp only [Function.update_noteq hwv] at hw
      have hr := h.bell w hw u hu
      exact Or.inr ⟨hnu _ hr.1, hr.2⟩

theorem Inv.settle {s : GridSize} {aff : Coordinate → Coordinate → Nat} {seed : Coordinate}
    {st : EngineState} {e : Nat × Coordinate} {rest : List (Nat × Coordinate)}
    (h : Inv s aff seed st) (hpop : popMax st.queue = some (e, rest)) :
    Inv s aff seed (settle s aff { st with queue := rest } e) := by
  obtain ⟨hmem, hrest, hmax⟩ := popMax_eq_some hpop
  subst hrest
  unfold itk.settle
  split
  · rename_i hfresh
    exact Mid.inv (Mid.expand _ (h.finalize hmem hmax hfresh))
  · rename_i hstale
    exact h.discard hstale

theorem Inv.initial {s : GridSize} (aff : Coordinate → Coordinate → Nat) {seed : Coordinate}
    (hseed : inBounds s seed) : Inv s aff seed (initial s aff seed) := by
  unfold itk.initial
  refine Mid.inv (Mid.expand _ ?_)
  have hfin : ∀ x, Function.update (fun _ => VisitedState.Unvisited) seed
      VisitedState.Finalized x = VisitedState.Finalized → x = seed := by
    intro x hx
    by_contra hne
    rw [Function.update_noteq hne] at hx
    cases hx
  refine ⟨⟨?_, ?_, List.nodup_nil, ?_, ?_, ?_, ?_, ?_, ?_, ?_, ?_⟩, ?_, ?_, hseed, ?_,
    fun u hu => hu, ?_⟩
  · intro e he; cases he
  · intro e he; cases he
  · intro e he; cases he
  · intro w hw
    by_cases hws : w = seed
    · subst hws
      simp at hw
    · simp [Function.update_noteq hws] at hw
  · intro e he; cases he
  · intro w _ e he; cases he
  · intro w hw
    have := hfin w hw
    subst this
    simp
  · intro x hx
    by_cases hxs : x = seed
    · subst hxs
      simpa using Walk.base
    · simp [Function.update_noteq hxs] at hx
  · simp
  · simp
  · simp
  · simp
  · intro w hw
    have := hfin w hw
    subst this
    simp
  · intro w hw u hu
    exact Or.inl ⟨hfin w hw, hfin w hw ▸ hu⟩

/-! ## Termination of the propagation -/

theorem consider_finalized (aff : Coordinate → Coordinate → Nat) (v : Coordinate) (k : Nat)
    (st : EngineState) (u x : Coordinate) :
    (consider aff v k st u).visited x = VisitedState.Finalized
      ↔ st.visited x = VisitedState.Finalized := by
  unfold consider
  split
  · rename_i hvis
    exact update_visited_finalized (by rw [hvis]; decide)
  · split <;> rfl
  · rfl

theorem consider_queue_length (aff : Coordinate → Coordinate → Nat) (v : Coordinate) (k : Nat)
    (st : EngineState) (u : Coordinate) :
    (consider aff v k st u).queue.length ≤ st.queue.length + 1 := by
  unfold consider
  split
  · simp
  · split <;> simp
  · simp

theorem expand_finalized (aff : Coordinate → Coordinate → Nat) (v : Coordinate) (k : Nat)
    (x : Coordinate) : ∀ (nbrs : List Coordinate) (st : EngineState),
    (expand aff v k st nbrs).visited x = VisitedState.Finalized
      ↔ st.visited x = VisitedState.Finalized
  | [], _ => Iff.rfl
  | u :: us, st =>
    (expand_finalized aff v k x us (consider aff v k st u)).trans
      (consider_finalized aff v k st u x)

theorem expand_queue_length (aff : Coordinate → Coordinate → Nat) (v : Coordinate) (k : Nat) :
    ∀ (nbrs : List Coordinate) (st : EngineState),
    (expand aff v k st nbrs).queue.length ≤ st.queue.length + nbrs.length
  | [], _ => Nat.le_refl _
  | u :: us, st => by
    have h1 := expand_queue_length aff v k us (consider aff v k st u)
    have h2 := consider_queue_length aff v k st u
    simp only [List.length_cons]
    unfold expand at h1 ⊢
    simp only [List.foldl_cons]
    omega

theorem countP_succ_le {α : Type} (p q : α → Bool) (a : α) :
    ∀ (l : List α), a ∈ l → p a = true → q a = false → (∀ x ∈ l, q x = true → p x = true) →
      l.countP q + 1 ≤ l.countP p
  | [], h, _, _, _ => by cases h
  | b :: l, h, hp, hq, himp => by
    have hmono : l.countP q ≤ l.countP p :=
      List.countP_mono_left fun x hx => himp x (List.mem_cons_of_mem _ hx)
    rcases List.mem_cons.1 h with rfl | hmem
    · rw [List.countP_cons_of_pos _ _ hp, List.countP_cons_of_neg _ _ (by simp [hq])]
      omega
    · have ih := countP_succ_le p q a l hmem hp hq
        fun x hx => himp x (List.mem_cons_of_mem _ hx)
      by_cases hqb : q b = true
      · rw [List.countP_cons_of_pos _ _ hqb,
          List.countP_cons_of_pos _ _ (himp b (List.mem_cons_self _ _) hqb)]
        omega
      · rw [List.countP_cons_of_neg _ _ hqb]
        by_cases hpb : p b = true
        · rw [List.countP_cons_of_pos _ _ hpb]
          omega
        · rw [List.countP_cons_of_neg _ _ hpb]
          omega

theorem unfinalized_congr {s : GridSize} {st st' : EngineState}
    (h : ∀ x, st'.visited x = VisitedState.Finalized ↔ st.visited x = VisitedState.Finalized) :
    unfinalized s st' = unfinalized s st := by
  unfold unfinalized
  congr 1
  funext p
  simp [h p]

/-- Every pop lowers the potential. -/
theorem Inv.settle_potential {s : GridSize} {aff : Coordinate → Coordinate → Nat}
    {seed : Coordinate} {st : EngineState} {e : Nat × Coordinate}
    {rest : List (Nat × Coordinate)} (h : Inv s aff seed st)
    (hpop : popMax st.queue = some (e, rest)) :
    potential s (itk.settle s aff { st with queue := rest } e) + 1 ≤ potential s st := by
  obtain ⟨hmem, hrest, _⟩ := popMax_eq_some hpop
  subst hrest
  have hlen : (st.queue.erase e).length + 1 = st.queue.length := by
    rw [List.length_erase_of_mem hmem]
    have := List.length_pos_of_mem hmem
    omega
  unfold itk.settle
  split
  · rename_i hfresh
    have hfresh' : st.best e.2 = e.1 := hfresh
    have hq := h.entry_queued hmem hfresh'
    have h1 := expand_queue_length aff e.2 e.1 (neighbors s e.2)
      { st with
        queue := st.queue.erase e
        visited := Function.update st.visited e.2 VisitedState.Finalized
        connectedness := Function.update st.connectedness e.2 e.1 }
    have h2 := neighbors_length s e.2
    have h3 : unfinalized s (expand aff e.2 e.1
        { st with
          queue := st.queue.erase e
          visited := Function.update st.visited e.2 VisitedState.Finalized
          connectedness := Function.update st.connectedness e.2 e.1 }
        (neighbors s e.2)) + 1 ≤ unfinalized s st := by
      rw [unfinalized_congr (expand_finalized aff e.2 e.1 · (neighbors s e.2) _)]
      unfold unfinalized
      refine countP_succ_le _ _ e.2 _ (mem_allPixels.2 (h.core.qbound e hmem)) ?_ ?_ ?_
      · simp [hq]
      · simp
      · intro x _ hx
        by_cases hxv : x = e.2
        · subst hxv
          simp at hx
        · simpa [Function.update_noteq hxv] using hx
    have key : potential s (expand aff e.2 e.1
        { st with
          queue := st.queue.erase e
          visited := Function.update st.visited e.2 VisitedState.Finalized
          connectedness := Function.update st.connectedness e.2 e.1 }
        (neighbors s e.2)) + 1 ≤ potential s st := by
      unfold potential
      simp only at h1
      omega
    exact key
  · unfold potential unfinalized
    simp only
    omega

theorem propagate_done {s : GridSize} {aff : Coordinate → Coordinate → Nat} {seed : Coordinate} :
    ∀ (n : Nat) (st : EngineState), Inv s aff seed st → potential s st ≤ n →
      Inv s aff seed (propagate s aff n st) ∧ (propagate s aff n st).queue = []
  | 0, st, h, hn => by
    refine ⟨h, ?_⟩
    unfold potential at hn
    show st.queue = []
    exact List.length_eq_zero.1 (by omega)
  | n + 1, st, h, hn => by
    unfold propagate
    split
    · rename_i hpop
      exact ⟨h, popMax_eq_none hpop⟩
    · rename_i e rest hpop
      have hpot := h.settle_potential hpop
      exact propagate_done n _ (h.settle hpop) (by omega)

theorem initial_potential (s : GridSize) (aff : Coordinate → Coordinate → Nat)
    (seed : Coordinate) : potential s (initial s aff seed) ≤ popBound s := by
  unfold potential popBound itk.initial
  have h1 := expand_queue_length aff seed MAX_SCORE (neighbors s seed)
    { connectedness := Function.update (fun _ => 0) seed MAX_SCORE
      visited := Function.update (fun _ => VisitedState.Unvisited) seed VisitedState.Finalized
      best := Function.update (fun _ => 0) seed MAX_SCORE
      queue := [] }
  have h2 := neighbors_length s seed
  have h3 : ∀ st, unfinalized s st ≤ (allPixels s).length := fun st => List.countP_le_length _
  have h4 := h3 (expand aff seed MAX_SCORE
    { connectedness := Function.update (fun _ => 0) seed MAX_SCORE
      visited := Function.update (fun _ => VisitedState.Unvisited) seed VisitedState.Finalized
      best := Function.update (fun _ => 0) seed MAX_SCORE
      queue := [] } (neighbors s seed))
  simp only [List.length_nil] at h1
  omega

/-- The propagation of a run ends with an empty priority structure, in a state
where the invariant holds. -/
theorem run_state {s : GridSize} (aff : Coordinate → Coordinate → Nat) {seed : Coordinate}
    (hseed : inBounds s seed) :
    Inv s aff seed (propagate s aff (popBound s) (initial s aff seed))
      ∧ (propagate s aff (popBound s) (initial s aff seed)).queue = [] :=
  propagate_done _ _ (Inv.initial aff hseed) (initial_potential s aff seed)

/-! ## Paths -/

theorem pathStrength_le_max (aff : Coordinate → Coordinate → Nat) :
    ∀ (path : List Coordinate), pathStrength aff path ≤ MAX_SCORE
  | [] => Nat.le_refl _
  | [_] => Nat.le_refl _
  | a :: b :: rest => by
    have := pathStrength_le_max aff (b :: rest)
    simp only [pathStrength]
    omega

theorem isPath_concat {s : GridSize} {v u : Coordinate} (hu : u ∈ neighbors s v) :
    ∀ (path : List Coordinate), isPath s path → path.getLast? = some v → isPath s (path ++ [u])
  | [], _, hl => by simp at hl
  | [a], _, hl => by
    simp at hl
    subst hl
    exact ⟨hu, trivial⟩
  | a :: b :: rest, hp, hl => by
    rw [List.getLast?_cons_cons] at hl
    exact ⟨hp.1, isPath_concat hu (b :: rest) hp.2 hl⟩

theorem pathStrength_concat (aff : Coordinate → Coordinate → Nat) {v : Coordinate}
    (u : Coordinate) : ∀ (path : List Coordinate), path.getLast? = some v →
      pathStrength aff (path ++ [u]) = min (pathStrength aff path) (aff v u)
  | [], hl => by simp at hl
  | [a], hl => by
    simp at hl
    subst hl
    simp only [List.singleton_append, pathStrength]
    omega
  | a :: b :: rest, hl => by
    rw [List.getLast?_cons_cons] at hl
    have ih := pathStrength_concat aff u (b :: rest) hl
    show min (aff a b) (pathStrength aff ((b :: rest) ++ [u])) = _
    rw [ih]
    simp only [pathStrength]
    omega

/-- A walk is a path, listed from the seed to its end, of the same strength. -/
theorem Walk.path {s : GridSize} {aff : Coordinate → Coordinate → Nat} {seed v : Coordinate}
    {w : Nat} (h : Walk s aff seed v w) :
    ∃ path, isPathFromTo s seed v path ∧ pathStrength aff path = w := by
  induction h with
  | base => exact ⟨[seed], ⟨rfl, rfl, trivial⟩, rfl⟩
  | @step v u w _ hu ih =>
    obtain ⟨path, ⟨hhead, hlast, hpath⟩, hstr⟩ := ih
    refine ⟨path ++ [u], ⟨?_, ?_, isPath_concat hu path hpath hlast⟩, ?_⟩
    · cases path with
      | nil => simp at hhead
      | cons a rest => simpa using hhead
    · simp
    · rw [pathStrength_concat aff u path hlast, hstr]

/-- Every pixel of the grid can be walked to from a seed within the grid. -/
theorem Walk.exists_of_inBounds {s : GridSize} (aff : Coordinate → Coordinate → Nat)
    {seed p : Coordinate} (hseed : inBounds s seed) (hp : inBounds s p) :
    ∃ w, Walk s aff seed p w := by
  obtain ⟨x0, y0, z0⟩ := seed
  obtain ⟨x, y, z⟩ := p
  obtain ⟨hx0, hy0, hz0⟩ := hseed
  obtain ⟨hx, hy, hz⟩ := hp
  simp only at hx0 hy0 hz0 hx hy hz
  have upx : ∀ n b c, (∃ w, Walk s aff (x0, y0, z0) (x0, b, c) w) → x0 + n < s.nx →
      ∃ w, Walk s aff (x0, y0, z0) (x0 + n, b, c) w := by
    intro n b c h0
    induction n with
    | zero => exact fun _ => h0
    | succ n ih =>
      intro hn
      obtain ⟨w, hw⟩ := ih (by omega)
      exact ⟨_, Walk.step hw (mem_neighbors.2 (Or.inr (Or.inl ⟨by simpa using hn, rfl⟩)))⟩
  have downx : ∀ n b c, (∃ w, Walk s aff (x0, y0, z0) (x0, b, c) w) → n ≤ x0 →
      ∃ w, Walk s aff (x0, y0, z0) (x0 - n, b, c) w := by
    intro n b c h0
    induction n with
    | zero => exact fun _ => h0
    | succ n ih =>
      intro hn
      obtain ⟨w, hw⟩ := ih (by omega)
      refine ⟨_, Walk.step hw (mem_neighbors.2 (Or.inl ⟨?_, ?_⟩))⟩
      · show 0 < x0 - n
        omega
      · show (x0 - (n + 1), b, c) = (x0 - n - 1, b, c)
        rfl
  have upy : ∀ n c, (∃ w, Walk s aff (x0, y0, z0) (x0, y0, c) w) → y0 + n < s.ny →
      ∃ w, Walk s aff (x0, y0, z0) (x0, y0 + n, c) w := by
    intro n c h0
    induction n with
    | zero => exact fun _ => h0
    | succ n ih =>
      intro hn
      obtain ⟨w, hw⟩ := ih (by omega)
      exact ⟨_, Walk.step hw
        (mem_neighbors.2 (Or.inr (Or.inr (Or.inr (Or.inl ⟨by simpa using hn, rfl⟩)))))⟩
  have downy : ∀ n c, (∃ w, Walk s aff (x0, y0, z0) (x0, y0, c) w) → n ≤ y0 →
      ∃ w, Walk s aff (x0, y0, z0) (x0, y0 - n, c) w := by
    intro n c h0
    induction n with
    | zero => exact fun _ => h0
    | succ n ih =>
      intro hn
      obtain ⟨w, hw⟩ := ih (by omega)
      refine ⟨_, Walk.step hw (mem_neighbors.2 (Or.inr (Or.inr (Or.inl ⟨?_, ?_⟩))))⟩
      · show 0 < y0 - n
        omega
      · show (x0, y0 - (n + 1), c) = (x0, y0 - n - 1, c)
        rfl
  have upz : ∀ n, z0 + n < s.nz → ∃ w, Walk s aff (x0, y0, z0) (x0, y0, z0 + n) w := by
    intro n
    induction n with
    | zero => exact fun _ => ⟨_, Walk.base⟩
    | succ n ih =>
      intro hn
      obtain ⟨w, hw⟩ := ih (by omega)
      exact ⟨_, Walk.step hw (mem_neighbors.2
        (Or.inr (Or.inr (Or.inr (Or.inr (Or.inr ⟨by simpa using hn, rfl⟩))))))⟩
  have downz : ∀ n, n ≤ z0 → ∃ w, Walk s aff (x0, y0, z0) (x0, y0, z0 - n) w := by
    intro n
    induction n with
    | zero => exact fun _ => ⟨_, Walk.base⟩
    | succ n ih =>
      intro hn
      obtain ⟨w, hw⟩ := ih (by omega)
      refine ⟨_, Walk.step hw
        (mem_neighbors.2 (Or.inr (Or.inr (Or.inr (Or.inr (Or.inl ⟨?_, ?_⟩))))))⟩
      · show 0 < z0 - n
        omega
      · show (x0, y0, z0 - (n + 1)) = (x0, y0, z0 - n - 1)
        rfl
  have hz' : ∃ w, Walk s aff (x0, y0, z0) (x0, y0, z) w := by
    rcases Nat.le_total z0 z with h | h
    · have := upz (z - z0) (by omega)
      rwa [Nat.add_sub_cancel' h] at this
    · have := downz (z0 - z) (by omega)
      rwa [Nat.sub_sub_self h] at this
  have hy' : ∃ w, Walk s aff (x0, y0, z0) (x0, y, z) w := by
    rcases Nat.le_total y0 y with h | h
    · have := upy (y - y0) z hz' (by omega)
      rwa [Nat.add_sub_cancel' h] at this
    · have := downy (y0 - y) z hz' (by omega)
      rwa [Nat.sub_sub_self h] at this
  rcases Nat.le_total x0 x with h | h
  · have := upx (x - x0) y z hy' (by omega)
    rwa [Nat.add_sub_cancel' h] at this
  · have := downx (x0 - x) y z hy' (by omega)
    rwa [Nat.sub_sub_self h] at this

/-- Every pixel of the grid is joined to a seed within the grid by a path. -/
theorem exists_path {s : GridSize} {seed p : Coordinate} (hseed : inBounds s seed)
    (hp : inBounds s p) : ∃ path, isPathFromTo s seed p path := by
  obtain ⟨w, hw⟩ := Walk.exists_of_inBounds (fun _ _ => 0) hseed hp
  obtain ⟨path, hpath, _⟩ := hw.path
  exact ⟨path, hpath⟩

/-! ## The state at the end of a run -/

/-- Once the priority structure is empty, the neighbours of a Finalized pixel
are Finalized, with at least the strength that the link gives. -/
theorem Inv.closed {s : GridSize} {aff : Coordinate → Coordinate → Nat} {seed : Coordinate}
    {st : EngineState} (h : Inv s aff seed st) (hq : st.queue = []) {w u : Coordinate}
    (hw : st.visited w = VisitedState.Finalized) (hu : u ∈ neighbors s w) :
    st.visited u = VisitedState.Finalized
      ∧ min (st.connectedness w) (aff w u) ≤ st.connectedness u := by
  obtain ⟨hvis, hle⟩ := h.bell w hw u hu
  have hfin : st.visited u = VisitedState.Finalized := by
    cases hv : st.visited u with
    | Unvisited => exact absurd hv hvis
    | Queued =>
      have := h.core.qlive u hv
      rw [hq] at this
      cases this
    | Finalized => rfl
  refine ⟨hfin, ?_⟩
  rw [h.core.conn_eq w hw, h.core.conn_eq u hfin]
  exact hle

/-- Once the priority structure is empty, no path out of a Finalized pixel is
stronger than the connectedness of its end allows. -/
theorem Inv.path_le {s : GridSize} {aff : Coordinate → Coordinate → Nat} {seed : Coordinate}
    {st : EngineState} (h : Inv s aff seed st) (hq : st.queue = []) :
    ∀ (path : List Coordinate) (a b : Coordinate),
      st.visited a = VisitedState.Finalized → isPathFromTo s a b path →
        st.visited b = VisitedState.Finalized
          ∧ min (st.connectedness a) (pathStrength aff path) ≤ st.connectedness b
  | [], _, _, _, hp => by
    have := hp.1
    simp at this
  | [x], a, b, ha, hp => by
    obtain ⟨h1, h2, _⟩ := hp
    simp at h1 h2
    subst h1
    subst h2
    exact ⟨ha, Nat.min_le_left _ _⟩
  | x :: y :: rest, a, b, ha, hp => by
    obtain ⟨h1, h2, h3, h4⟩ := hp
    simp only [List.head?_cons, Option.some.injEq] at h1
    subst h1
    rw [List.getLast?_cons_cons] at h2
    obtain ⟨hy, hxy⟩ := h.closed hq ha h3
    obtain ⟨hb, hle⟩ := Inv.path_le h hq (y :: rest) y b hy ⟨rfl, h2, h4⟩
    refine ⟨hb, ?_⟩
    simp only [pathStrength]
    omega

/-! ## The fuzzy scene of a run -/

/-- C7: for an in-bounds seed the run returns a fuzzy scene of the size of the
input in which every pixel `p` of the grid holds the maximum, over all paths of
direct neighbours from the seed to `p`, of the weakest affinity along the path:
some path has exactly that strength and no path is stronger. In particular a
pixel whose paths all have strength 0 holds 0. -/
theorem run_max_min {Sample : Type} (input : Grid Sample) (affinity : Sample → Sample → Nat)
    (seed : Coordinate) (hseed : inBounds input.size seed) :
    ∃ scene, run input affinity seed = Except.ok scene ∧ scene.size = input.size ∧
      ∀ p, inBounds input.size p →
        (∃ path, isPathFromTo input.size seed p path
            ∧ pathStrength (pixelAffinity input affinity) path = scene.data p)
          ∧ (∀ path, isPathFromTo input.size seed p path →
              pathStrength (pixelAffinity input affinity) path ≤ scene.data p)
          ∧ ((∀ path, isPathFromTo input.size seed p path →
              pathStrength (pixelAffinity input affinity) path = 0) → scene.data p = 0) := by
  obtain ⟨hinv, hq⟩ := run_state (pixelAffinity input affinity) hseed
  refine ⟨_, if_pos hseed, rfl, ?_⟩
  intro p hp
  have hle : ∀ path, isPathFromTo input.size seed p path →
      (propagate input.size (pixelAffinity input affinity) (popBound input.size)
          (initial input.size (pixelAffinity input affinity) seed)).visited p
        = VisitedState.Finalized
      ∧ pathStrength (pixelAffinity input affinity) path
        ≤ (propagate input.size (pixelAffinity input affinity) (popBound input.size)
          (initial input.size (pixelAffinity input affinity) seed)).connectedness p := by
    intro path hpath
    obtain ⟨hfin, hmin⟩ := hinv.path_le hq path seed p hinv.core.seed_fin hpath
    refine ⟨hfin, ?_⟩
    rw [hinv.core.conn_eq seed hinv.core.seed_fin, hinv.core.seed_best] at hmin
    have := pathStrength_le_max (pixelAffinity input affinity) path
    omega
  obtain ⟨path0, hpath0⟩ := exists_path hseed hp
  have hfin := (hle path0 hpath0).1
  have hwalk := hinv.core.walk p (by rw [hfin]; decide)
  rw [← hinv.core.conn_eq p hfin] at hwalk
  obtain ⟨path, hpath, hstr⟩ := hwalk.path
  refine ⟨⟨path, hpath, hstr⟩, fun path' hpath' => (hle path' hpath').2, ?_⟩
  intro hzero
  exact hstr.symm.trans (hzero path hpath)

/-- The run on `sampleGrid` from the origin, evaluated: the seed holds `MAX_SCORE`,
its two neighbours hold the affinity of their link to it, and the far corner
holds 90, the strength of both paths that lead to it. -/
theorem run_sampleGrid :
    (match run sampleGrid sampleAffinity (0, 0, 0) with
      | Except.ok g => [g.data (0, 0, 0), g.data (0, 1, 0), g.data (1, 0, 0), g.data (1, 1, 0)]
      | Except.error _ => []) = [65535, 99, 90, 90] := by
  decide

/-- C7 at `sampleGrid`, seeded at the origin. -/
theorem run_max_min_witness :
    inBounds sampleGrid.size (0, 0, 0)
      ∧ ∃ scene, run sampleGrid sampleAffinity (0, 0, 0) = Except.ok scene
        ∧ scene.size = sampleGrid.size
        ∧ ∀ p, inBounds sampleGrid.size p →
          (∃ path, isPathFromTo sampleGrid.size (0, 0, 0) p path
              ∧ pathStrength (pixelAffinity sampleGrid sampleAffinity) path = scene.data p)
            ∧ (∀ path, isPathFromTo sampleGrid.size (0, 0, 0) p path →
                pathStrength (pixelAffinity sampleGrid sampleAffinity) path ≤ scene.data p)
            ∧ ((∀ path, isPathFromTo sampleGrid.size (0, 0, 0) p path →
                pathStrength (pixelAffinity sampleGrid sampleAffinity) path = 0) →
              scene.data p = 0) :=
  ⟨by decide, run_max_min sampleGrid sampleAffinity (0, 0, 0) (by decide)⟩

namespace SegmentationController

variable {Sample : Type}

/-- C8: after a successful run, setting the threshold to any `t` leaves the
connectedness grid as the run produced it, and the mask rebuilt afterwards is
`mask[p] = (connectedness[p] >= t)` at every pixel. -/
theorem threshold_independence (c c' : SegmentationController Sample) (t : Nat)
    (hrun : c.execute = Except.ok c') :
    (c'.setThreshold t).connectednessGrid = c'.connectednessGrid
      ∧ (c'.setThreshold t).getConnectednessGrid = c'.getConnectednessGrid
      ∧ ∃ g mask, c'.getConnectednessGrid = Except.ok g
        ∧ (c'.setThreshold t).getBinaryMask = Except.ok mask
        ∧ mask.size = g.size
        ∧ ∀ p, mask.data p = decide (g.data p ≥ t) := by
  refine ⟨rfl, rfl, ?_⟩
  unfold execute at hrun
  split at hrun
  · split at hrun
    · cases hrun
    · split at hrun
      · rename_i g _
        cases hrun
        exact ⟨g, _, rfl, rfl, rfl, fun _ => rfl⟩
      · cases hrun
  · cases hrun

/-- C8 at `sampleController`, which runs successfully, with the threshold then set
to 95. -/
theorem threshold_independence_witness :
    ∃ c', sampleController.execute = Except.ok c'
      ∧ (c'.setThreshold 95).connectednessGrid = c'.connectednessGrid
      ∧ (c'.setThreshold 95).getConnectednessGrid = c'.getConnectednessGrid
      ∧ ∃ g mask, c'.getConnectednessGrid = Except.ok g
        ∧ (c'.setThreshold 95).getBinaryMask = Except.ok mask
        ∧ mask.size = g.size
        ∧ ∀ p, mask.data p = decide (g.data p ≥ 95) :=
  ⟨_, rfl, threshold_independence sampleController _ 95 rfl⟩

end SegmentationController

namespace FuzzyConnectednessRGBImageFilter

variable {α : Type}

theorem itkSetVectorMacro_apply [DecidableEq α] (stored data : Vec3 α) (k : Fin 3) :
    itkSetVectorMacro stored data k = data k := by
  unfold itkSetVectorMacro
  split
  · rename_i h
    obtain ⟨h0, h1, h2⟩ := h
    fin_cases k
    · exact h0.symm
    · exact h1.symm
    · exact h2.symm
  · fin_cases k <;> rfl

/-- What `SetVar` followed by `GetVar` reports, for every filter and matrix: the
entry given at each position other than `[2][1]`, and the entry `[2][2]` there. -/
theorem SetVar_GetVar_entries (s : FuzzyConnectednessRGBImageFilter α) (M out : Mat3 α)
    (i j : Fin 3) :
    (GetVar (SetVar s M) out).2 i j = if (i, j) = (2, 1) then M 2 2 else M i j := by
  fin_cases i <;> fin_cases j <;> rfl

/-- C1, at the input `counting`: `SetVar` followed by `GetVar` reports 9, the
entry `[2][2]` of the input, at position `[2][1]`, where the input holds 8; the
other eight positions are reported as given. -/
theorem SetVar_GetVar_slip :
    (GetVar (SetVar unitFilter counting) zero3).2 2 1 = 9
      ∧ counting 2 1 = 8
      ∧ (GetVar (SetVar unitFilter counting) zero3).2 2 1 ≠ counting 2 1
      ∧ ∀ i j, (i, j) ≠ (2, 1) →
          (GetVar (SetVar unitFilter counting) zero3).2 i j = counting i j := by
  refine ⟨?_, ?_, ?_, ?_⟩
  · simp [GetVar, SetVar, counting]
  · simp [counting]
  · simp [GetVar, SetVar, counting]
  · intro i j h
    fin_cases i <;> fin_cases j <;> simp [GetVar, SetVar] at h ⊢

/-- C2 as stated fails: the zero matrix has determinant 0, and yet `SetVar` and
`SetDiffVar` replace the stored covariance by it. -/
theorem SetVar_singular_counterexample :
    det3 zero3 = 0
      ∧ (SetVar unitFilter zero3).m_Var ≠ unitFilter.m_Var
      ∧ (SetDiffVar unitFilter zero3).m_DiffVar ≠ unitFilter.m_DiffVar := by
  refine ⟨by simp [det3, zero3], ?_, ?_⟩
  · intro h
    have h00 := congrFun (congrFun h 0) 0
    simp [SetVar, unitFilter, identity3, zero3] at h00
  · intro h
    have h00 := congrFun (congrFun h 0) 0
    simp [SetDiffVar, unitFilter, identity3, zero3] at h00

/-- C2, amended: a matrix of determinant 0 is stored like any other. `SetDiffVar`
stores it entry for entry, `SetVar` stores it at the eight positions other than
`[2][1]`, and both leave every other field as it was. -/
theorem SetVar_singular_stored [CommRing α] (s : FuzzyConnectednessRGBImageFilter α)
    (M : Mat3 α) (_hdet : det3 M = 0) :
    (∀ i j, (i, j) ≠ (2, 1) → (SetVar s M).m_Var i j = M i j)
      ∧ (∀ i j, (SetDiffVar s M).m_DiffVar i j = M i j)
      ∧ (SetVar s M).m_Mean = s.m_Mean ∧ (SetVar s M).m_DiffMean = s.m_DiffMean
      ∧ (SetVar s M).m_DiffVar = s.m_DiffVar
      ∧ (SetDiffVar s M).m_Mean = s.m_Mean ∧ (SetDiffVar s M).m_DiffMean = s.m_DiffMean
      ∧ (SetDiffVar s M).m_Var = s.m_Var := by
  refine ⟨?_, ?_, rfl, rfl, rfl, rfl, rfl, rfl⟩
  · intro i j h
    fin_cases i <;> fin_cases j <;> first | rfl | exact absurd rfl h
  · intro i j
    fin_cases i <;> fin_cases j <;> rfl

/-- The amended C2 at the zero matrix, on a filter that holds the identity. -/
theorem SetVar_singular_stored_witness :
    det3 zero3 = 0
      ∧ (∀ i j, (i, j) ≠ (2, 1) → (SetVar unitFilter zero3).m_Var i j = zero3 i j)
      ∧ (∀ i j, (SetDiffVar unitFilter zero3).m_DiffVar i j = zero3 i j) :=
  ⟨by simp [det3, zero3],
    (SetVar_singular_stored unitFilter zero3 (by simp [det3, zero3])).1,
    (SetVar_singular_stored unitFilter zero3 (by simp [det3, zero3])).2.1⟩

/-- C3 as stated fails: on a filter whose cached determinants are 1, setting either
covariance to twice the identity, an invertible matrix of determinant 8, leaves
the cached determinant at 1, which is not the determinant of the stored matrix. -/
theorem setter_cache_counterexample :
    det3 twice3 = 8
      ∧ (SetDiffVar unitFilter twice3).m_DiffVar = twice3
      ∧ (SetDiffVar unitFilter twice3).m_DiffVarDet = 1
      ∧ (SetDiffVar unitFilter twice3).m_DiffVarDet
          ≠ det3 (SetDiffVar unitFilter twice3).m_DiffVar
      ∧ (SetVar unitFilter twice3).m_VarDet ≠ det3 (SetVar unitFilter twice3).m_Var := by
  refine ⟨?_, ?_, rfl, ?_, ?_⟩
  · simp [det3, twice3]
    norm_num
  · funext i j
    fin_cases i <;> fin_cases j <;> simp [SetDiffVar, twice3]
  · simp [SetDiffVar, unitFilter, det3, twice3]
    norm_num
  · simp [SetVar, unitFilter, det3, twice3]
    norm_num

/-- C3, amended: no setter recomputes a cached value. After `SetVar`,
`SetDiffVar`, `SetMean` or `SetDiffMean` the fields `m_VarInverse`, `m_VarDet`,
`m_DiffVarInverse` and `m_DiffVarDet` hold what they held before the call. -/
theorem setters_keep_cached_fields [DecidableEq α] (s : FuzzyConnectednessRGBImageFilter α)
    (M : Mat3 α) (v : Vec3 α) :
    ((SetVar s M).m_VarInverse = s.m_VarInverse ∧ (SetVar s M).m_VarDet = s.m_VarDet
        ∧ (SetVar s M).m_DiffVarInverse = s.m_DiffVarInverse
        ∧ (SetVar s M).m_DiffVarDet = s.m_DiffVarDet)
      ∧ ((SetDiffVar s M).m_VarInverse = s.m_VarInverse
        ∧ (SetDiffVar s M).m_VarDet = s.m_VarDet
        ∧ (SetDiffVar s M).m_DiffVarInverse = s.m_DiffVarInverse
        ∧ (SetDiffVar s M).m_DiffVarDet = s.m_DiffVarDet)
      ∧ ((SetMean s v).m_VarInverse = s.m_VarInverse ∧ (SetMean s v).m_VarDet = s.m_VarDet
        ∧ (SetMean s v).m_DiffVarInverse = s.m_DiffVarInverse
        ∧ (SetMean s v).m_DiffVarDet = s.m_DiffVarDet)
      ∧ ((SetDiffMean s v).m_VarInverse = s.m_VarInverse
        ∧ (SetDiffMean s v).m_VarDet = s.m_VarDet
        ∧ (SetDiffMean s v).m_DiffVarInverse = s.m_DiffVarInverse
        ∧ (SetDiffMean s v).m_DiffVarDet = s.m_DiffVarDet) :=
  ⟨⟨rfl, rfl, rfl, rfl⟩, ⟨rfl, rfl, rfl, rfl⟩, ⟨rfl, rfl, rfl, rfl⟩, ⟨rfl, rfl, rfl, rfl⟩⟩

/-- C4: `SetDiffVar(M)` followed by `GetDiffVar(out)` gives `out[i][j] = M[i][j]`
at all nine positions, whatever the filter and `out` held before. -/
theorem SetDiffVar_GetDiffVar (s : FuzzyConnectednessRGBImageFilter α) (M out : Mat3 α)
    (i j : Fin 3) : (GetDiffVar (SetDiffVar s M) out).2 i j = M i j := by
  fin_cases i <;> fin_cases j <;> rfl

/-- C5: `SetVar` changes no field other than `m_Var` and `SetDiffVar` no field
other than `m_DiffVar`, so the getters of the other profile report what they
reported before; the four getters return the filter as it was. -/
theorem setters_frame (s : FuzzyConnectednessRGBImageFilter α) (M : Mat3 α)
    (ov : Vec3 α) (om : Mat3 α) :
    SetVar s M = { s with m_Var := (SetVar s M).m_Var }
      ∧ SetDiffVar s M = { s with m_DiffVar := (SetDiffVar s M).m_DiffVar }
      ∧ ((SetVar s M).m_Mean = s.m_Mean ∧ (SetVar s M).m_DiffMean = s.m_DiffMean
        ∧ (SetVar s M).m_DiffVar = s.m_DiffVar ∧ (SetVar s M).m_VarInverse = s.m_VarInverse
        ∧ (SetVar s M).m_DiffVarInverse = s.m_DiffVarInverse
        ∧ (SetVar s M).m_VarDet = s.m_VarDet ∧ (SetVar s M).m_DiffVarDet = s.m_DiffVarDet)
      ∧ ((SetDiffVar s M).m_Mean = s.m_Mean ∧ (SetDiffVar s M).m_DiffMean = s.m_DiffMean
        ∧ (SetDiffVar s M).m_Var = s.m_Var
        ∧ (SetDiffVar s M).m_VarInverse = s.m_VarInverse
        ∧ (SetDiffVar s M).m_DiffVarInverse = s.m_DiffVarInverse
        ∧ (SetDiffVar s M).m_VarDet = s.m_VarDet
        ∧ (SetDiffVar s M).m_DiffVarDet = s.m_DiffVarDet)
      ∧ ((GetDiffMean (SetVar s M) ov).2 = (GetDiffMean s ov).2
        ∧ (GetDiffVar (SetVar s M) om).2 = (GetDiffVar s om).2
        ∧ (GetMean (SetVar s M) ov).2 = (GetMean s ov).2)
      ∧ ((GetMean (SetDiffVar s M) ov).2 = (GetMean s ov).2
        ∧ (GetVar (SetDiffVar s M) om).2 = (GetVar s om).2
        ∧ (GetDiffMean (SetDiffVar s M) ov).2 = (GetDiffMean s ov).2)
      ∧ ((GetMean s ov).1 = s ∧ (GetVar s om).1 = s ∧ (GetDiffMean s ov).1 = s
        ∧ (GetDiffVar s om).1 = s) :=
  ⟨rfl, rfl, ⟨rfl, rfl, rfl, rfl, rfl, rfl, rfl⟩, ⟨rfl, rfl, rfl, rfl, rfl, rfl, rfl⟩,
    ⟨rfl, rfl, rfl⟩, ⟨rfl, rfl, rfl⟩, ⟨rfl, rfl, rfl, rfl⟩⟩

/-- C6: `SetMean(v)` followed by `GetMean(out)` gives `out[k] = v[k]` for
`k = 0, 1, 2`, and so do `SetDiffMean(v)` and `GetDiffMean(out)`, also when `v`
equals the stored vector and the write is skipped. -/
theorem SetMean_GetMean [DecidableEq α] (s : FuzzyConnectednessRGBImageFilter α)
    (v out : Vec3 α) (k : Fin 3) :
    (GetMean (SetMean s v) out).2 k = v k
      ∧ (GetDiffMean (SetDiffMean s v) out).2 k = v k
      ∧ (v = s.m_Mean → (SetMean s v).m_Mean = s.m_Mean ∧ (GetMean (SetMean s v) out).2 = v) := by
  have hM : ∀ d, (SetMean s v).m_Mean d = v d := fun d => itkSetVectorMacro_apply _ _ d
  have hD : ∀ d, (SetDiffMean s v).m_DiffMean d = v d := fun d => itkSetVectorMacro_apply _ _ d
  refine ⟨?_, ?_, ?_⟩
  · fin_cases k <;> simp [GetMean, hM]
  · fin_cases k <;> simp [GetDiffMean, hD]
  · intro hv
    refine ⟨?_, ?_⟩
    · funext d; rw [hM, hv]
    · funext d; fin_cases d <;> simp [GetMean, hM]

/-- What `SetDiffVar` stores of a symmetric matrix is read back symmetric by
`GetDiffVar`. -/
theorem SetDiffVar_GetDiffVar_symmetric (s : FuzzyConnectednessRGBImageFilter α)
    (M out : Mat3 α) (hM : ∀ i j, M i j = M j i) (i j : Fin 3) :
    (GetDiffVar (SetDiffVar s M) out).2 i j = (GetDiffVar (SetDiffVar s M) out).2 j i := by
  have h : ∀ a b, (GetDiffVar (SetDiffVar s M) out).2 a b = M a b := by
    intro a b
    fin_cases a <;> fin_cases b <;> rfl
  rw [h, h, hM]

/-- C11, at the input `symmetric3`: the matrix is symmetric, and yet what `SetVar`
stores and `GetVar` reads back holds 6, the entry `[2][2]` of the input, at
`[2][1]` and 5 at `[1][2]`, so it is not symmetric; `SetDiffVar` and
`GetDiffVar` give the symmetric input back. -/
theorem SetVar_symmetry_slip :
    (∀ i j, symmetric3 i j = symmetric3 j i)
      ∧ (GetVar (SetVar unitFilter symmetric3) zero3).2 2 1 = 6
      ∧ (GetVar (SetVar unitFilter symmetric3) zero3).2 1 2 = 5
      ∧ ¬ (∀ i j, (GetVar (SetVar unitFilter symmetric3) zero3).2 i j
            = (GetVar (SetVar unitFilter symmetric3) zero3).2 j i)
      ∧ (∀ i j, (GetDiffVar (SetDiffVar unitFilter symmetric3) zero3).2 i j
            = (GetDiffVar (SetDiffVar unitFilter symmetric3) zero3).2 j i) := by
  have hsym : ∀ i j, symmetric3 i j = symmetric3 j i := by
    intro i j
    fin_cases i <;> fin_cases j <;> simp [symmetric3]
  refine ⟨hsym, ?_, ?_, ?_, ?_⟩
  · simp [GetVar, SetVar, symmetric3]
  · simp [GetVar, SetVar, symmetric3]
  · intro h
    have h21 := h 2 1
    simp [GetVar, SetVar, symmetric3] at h21
  · intro i j
    exact SetDiffVar_GetDiffVar_symmetric unitFilter symmetric3 zero3 hsym i j

end FuzzyConnectednessRGBImageFilter

namespace RGBPixel

variable {TComponent : Type}

/-- C9: after `Set(r, g, b)` the accessors give `GetRed() = r`, `GetGreen() = g`,
`GetBlue() = b`, which are the components of index 0, 1 and 2, and the number of
components is 3. -/
theorem Set_Get (p : RGBPixel TComponent) (r g b : TComponent) :
    (p.Set r g b).GetRed = r ∧ (p.Set r g b).GetGreen = g ∧ (p.Set r g b).GetBlue = b
      ∧ (p.Set r g b).GetNthComponent 0 = (p.Set r g b).GetRed
      ∧ (p.Set r g b).GetNthComponent 1 = (p.Set r g b).GetGreen
      ∧ (p.Set r g b).GetNthComponent 2 = (p.Set r g b).GetBlue
      ∧ (GetNumberOfComponents = 3) :=
  ⟨rfl, rfl, rfl, rfl, rfl, rfl, rfl⟩

/-- C10: `SetNthComponent(c, v)` makes component `c` equal to `v` and leaves every
other component as it was; `SetRed`, `SetGreen` and `SetBlue` are
`SetNthComponent` at index 0, 1 and 2. -/
theorem SetNthComponent_frame (p : RGBPixel TComponent) (c d : Fin 3) (v : TComponent) :
    (p.SetNthComponent c v).GetNthComponent c = v
      ∧ (p.SetNthComponent c v).GetNthComponent d
          = (if d = c then v else p.GetNthComponent d)
      ∧ p.SetRed v = p.SetNthComponent 0 v
      ∧ p.SetGreen v = p.SetNthComponent 1 v
      ∧ p.SetBlue v = p.SetNthComponent 2 v
      ∧ ((p.SetRed v).GetGreen = p.GetGreen ∧ (p.SetRed v).GetBlue = p.GetBlue)
      ∧ ((p.SetGreen v).GetRed = p.GetRed ∧ (p.SetGreen v).GetBlue = p.GetBlue)
      ∧ ((p.SetBlue v).GetRed = p.GetRed ∧ (p.SetBlue v).GetGreen = p.GetGreen) := by
  refine ⟨?_, rfl, rfl, rfl, rfl, ⟨rfl, rfl⟩, ⟨rfl, rfl⟩, ⟨rfl, rfl⟩⟩
  simp [SetNthComponent, GetNthComponent, assign]

end RGBPixel

/-! ## The scalar value of a pixel -/

theorem roundToDouble_of_lt {n : Nat} (h : n < 2 ^ 53) : roundToDouble n = n :=
  if_pos h

theorem log2_eq_of_bounds {n k : Nat} (hlo : 2 ^ k ≤ n) (hhi : n < 2 ^ (k + 1)) :
    Nat.log2 n = k := by
  have hn : n ≠ 0 := by
    have := Nat.one_le_two_pow (n := k)
    omega
  have h1 : Nat.log2 n < k + 1 := (Nat.log2_lt hn).2 hhi
  have h2 : k ≤ Nat.log2 n := (Nat.le_log2 hn).2 hlo
  omega

/-- Below `2 ^ 52` the rounded square root, once its fractional part is
discarded, is the integer square root: rounding never reaches the next
integer. -/
theorem vnl_math_sqrt_truncated {x : Nat} (hx : x < 2 ^ 52) :
    (vnl_math_sqrt x).1 / 2 ^ (vnl_math_sqrt x).2 = Nat.sqrt x := by
  unfold vnl_math_sqrt
  by_cases h0 : x = 0
  · subst h0
    simp
  rw [if_neg h0]
  have hk0 : Nat.sqrt x ≠ 0 := fun h => h0 (Nat.sqrt_eq_zero.1 h)
  have hk26 : Nat.sqrt x < 2 ^ 26 := Nat.sqrt_lt'.2 (by
    calc x < 2 ^ 52 := hx
      _ = (2 ^ 26) ^ 2 := by norm_num)
  have he : Nat.log2 (Nat.sqrt x) < 26 := (Nat.log2_lt hk0).2 hk26
  rw [if_pos (by omega)]
  generalize hk : Nat.sqrt x = k at *
  generalize ht : 52 - Nat.log2 k = t
  have ht27 : 27 ≤ t := by omega
  have h4 : (4 : Nat) ^ t = 2 ^ t * 2 ^ t := by
    rw [← Nat.mul_pow]
  have hT : k < 2 ^ t := by
    calc k < 2 ^ 26 := hk26
      _ ≤ 2 ^ t := Nat.pow_le_pow_right (by norm_num) (by omega)
  rw [h4]
  obtain ⟨T, hTdef⟩ : ∃ T, T = 2 ^ t := ⟨_, rfl⟩
  rw [← hTdef] at hT ⊢
  have hTpos : 0 < T := by omega
  have hklo : k * k ≤ x := hk ▸ Nat.sqrt_le x
  have hkhi : x < (k + 1) * (k + 1) := hk ▸ Nat.lt_succ_sqrt x
  have hmlo : k * T ≤ Nat.sqrt (x * (T * T)) := by
    rw [Nat.le_sqrt]
    calc k * T * (k * T) = k * k * (T * T) := by ring
      _ ≤ x * (T * T) := Nat.mul_le_mul_right _ hklo
  have hmhi : Nat.sqrt (x * (T * T)) < (k + 1) * T := by
    rw [Nat.sqrt_lt]
    calc x * (T * T) < (k + 1) * (k + 1) * (T * T) :=
          Nat.mul_lt_mul_of_pos_right hkhi (Nat.mul_pos hTpos hTpos)
      _ = (k + 1) * T * ((k + 1) * T) := by ring
  generalize Nat.sqrt (x * (T * T)) = m at *
  split
  · rename_i hup
    show (m + 1) / 2 ^ t = k
    rw [← hTdef]
    refine Nat.div_eq_of_lt_le (by omega) ?_
    by_contra hge
    have hK : m + 1 = (k + 1) * T := by
      have : (k + 1) * T ≤ m + 1 := Nat.le_of_not_lt hge
      omega
    have h1 : (x + 1) * (T * T) ≤ (m + 1) * (m + 1) := by
      calc (x + 1) * (T * T) ≤ (k + 1) * (k + 1) * (T * T) :=
            Nat.mul_le_mul_right _ hkhi
        _ = (k + 1) * T * ((k + 1) * T) := by ring
        _ = (m + 1) * (m + 1) := by rw [hK]
    have h2 : T * T ≤ m := by
      have hup' : (2 * m + 1) * (2 * m + 1) < 4 * (x * (T * T)) := by
        rw [← Nat.pow_two]
        exact hup
      nlinarith
    have h3 : T * T < (k + 1) * T := by omega
    have h4 : T < k + 1 := Nat.lt_of_mul_lt_mul_right h3
    omega
  · show m / 2 ^ t = k
    rw [← hTdef]
    exact Nat.div_eq_of_lt_le hmlo hmhi

theorem toDouble_wide : toDouble 9007199254740993 = 9007199254740992 := by
  have hl : Nat.log2 9007199254740993 = 53 := log2_eq_of_bounds (by norm_num) (by norm_num)
  unfold toDouble roundToDouble
  rw [hl]
  norm_num

theorem roundToDouble_two_pow_106 :
    roundToDouble 81129638414606681695789005144064 = 81129638414606681695789005144064 := by
  have hl : Nat.log2 81129638414606681695789005144064 = 106 :=
    log2_eq_of_bounds (by norm_num) (by norm_num)
  unfold roundToDouble
  rw [hl]
  norm_num

theorem vnl_math_sqrt_two_pow_106 :
    vnl_math_sqrt 81129638414606681695789005144064 = (9007199254740992, 0) := by
  have hl : Nat.log2 9007199254740992 = 53 := log2_eq_of_bounds (by norm_num) (by norm_num)
  have hs1 : Nat.sqrt 81129638414606681695789005144064 = 9007199254740992 := by
    symm
    rw [Nat.eq_sqrt]
    constructor <;> norm_num
  have hs2 : Nat.sqrt 20282409603651670423947251286016 = 4503599627370496 := by
    symm
    rw [Nat.eq_sqrt]
    constructor <;> norm_num
  unfold vnl_math_sqrt
  rw [hs1, hl]
  norm_num [hs2]

theorem vnl_math_sqrt_near_square :
    vnl_math_sqrt 4503599761588224 = (4503599694479360, 26) := by
  have hl : Nat.log2 67108864 = 26 := log2_eq_of_bounds (by norm_num) (by norm_num)
  have hs1 : Nat.sqrt 4503599761588224 = 67108864 := by
    symm
    rw [Nat.eq_sqrt]
    constructor <;> norm_num
  have hs2 : Nat.sqrt 20282410208114580231261838639104 = 4503599694479359 := by
    symm
    rw [Nat.eq_sqrt]
    constructor <;> norm_num
  unfold vnl_math_sqrt
  rw [hs1, hl]
  norm_num [hs2]

namespace RGBPixel

/-- When the squares of the components add up to less than `2 ^ 52`, all the
double arithmetic of `GetScalarValue` is exact up to the square root, and the
value returned is the integer square root of the sum, provided it fits the
component type. -/
theorem GetScalarValue_eq_sqrt (bits : Nat) (p : RGBPixel Nat)
    (hsmall : p.data 0 * p.data 0 + p.data 1 * p.data 1 + p.data 2 * p.data 2 < 2 ^ 52)
    (hfit : p.data 0 * p.data 0 + p.data 1 * p.data 1 + p.data 2 * p.data 2
      < 2 ^ bits * 2 ^ bits) :
    GetScalarValue bits p
      = some (Nat.sqrt (p.data 0 * p.data 0 + p.data 1 * p.data 1 + p.data 2 * p.data 2)) := by
  have h52 : (2 : Nat) ^ 52 < 2 ^ 53 := by norm_num
  have hc : ∀ c : Nat, c * c < 2 ^ 53 → toDouble c = c := by
    intro c hc
    exact roundToDouble_of_lt (lt_of_le_of_lt (Nat.le_mul_self c) hc)
  have hm : ∀ c : Nat, c * c < 2 ^ 53 → mulDouble (toDouble c) (toDouble c) = c * c := by
    intro c hcc
    rw [hc c hcc]
    exact roundToDouble_of_lt hcc
  unfold GetScalarValue
  rw [hm _ (by omega), hm _ (by omega), hm _ (by omega)]
  have ha1 : addDouble (p.data 0 * p.data 0) (p.data 1 * p.data 1)
      = p.data 0 * p.data 0 + p.data 1 * p.data 1 := roundToDouble_of_lt (by omega)
  rw [ha1]
  have ha2 : addDouble (p.data 0 * p.data 0 + p.data 1 * p.data 1) (p.data 2 * p.data 2)
      = p.data 0 * p.data 0 + p.data 1 * p.data 1 + p.data 2 * p.data 2 :=
    roundToDouble_of_lt (by omega)
  rw [ha2]
  unfold castToComponent
  rw [vnl_math_sqrt_truncated hsmall, if_pos (Nat.sqrt_lt.2 hfit)]


/-- The scalar value of `widePixel`, step by step: the cast of `2 ^ 53 + 1` to
double is `2 ^ 53`, its square `2 ^ 106` is a double, and so is the square
root `2 ^ 53`. -/
theorem GetScalarValue_widePixel : GetScalarValue 64 widePixel = some 9007199254740992 := by
  have hz : toDouble 0 = 0 := roundToDouble_of_lt (by norm_num)
  have hm : mulDouble 9007199254740992 9007199254740992
      = 81129638414606681695789005144064 := by
    unfold mulDouble
    norm_num
    exact roundToDouble_two_pow_106
  have hmz : mulDouble 0 0 = 0 := roundToDouble_of_lt (by norm_num)
  have ha : addDouble 81129638414606681695789005144064 0
      = 81129638414606681695789005144064 := by
    unfold addDouble
    norm_num
    exact roundToDouble_two_pow_106
  show castToComponent 64 (vnl_math_sqrt (addDouble (addDouble
    (mulDouble (toDouble 9007199254740993) (toDouble 9007199254740993))
    (mulDouble (toDouble 0) (toDouble 0))) (mulDouble (toDouble 0) (toDouble 0)))) = _
  rw [toDouble_wide, hz, hm, hmz, ha, ha, vnl_math_sqrt_two_pow_106]
  unfold castToComponent
  norm_num

/-- The scalar value of `nearSquarePixel`: the sum of squares
`(2 ^ 26 + 1) ^ 2 - 1` is exact, and its square root is so close to `2 ^ 26 + 1`
that the nearest double is `2 ^ 26 + 1` itself. -/
theorem GetScalarValue_nearSquarePixel : GetScalarValue 32 nearSquarePixel = some 67108865 := by
  have hc : ∀ c : Nat, c < 2 ^ 53 → toDouble c = c := fun c h => roundToDouble_of_lt h
  have h1 : mulDouble 67100672 67100672 = 4502500182851584 :=
    roundToDouble_of_lt (by norm_num)
  have h2 : mulDouble 1048576 1048576 = 1099511627776 := roundToDouble_of_lt (by norm_num)
  have h3 : mulDouble 8192 8192 = 67108864 := roundToDouble_of_lt (by norm_num)
  have h4 : addDouble 4502500182851584 1099511627776 = 4503599694479360 :=
    roundToDouble_of_lt (by norm_num)
  have h5 : addDouble 4503599694479360 67108864 = 4503599761588224 :=
    roundToDouble_of_lt (by norm_num)
  show castToComponent 32 (vnl_math_sqrt (addDouble (addDouble
    (mulDouble (toDouble 67100672) (toDouble 67100672))
    (mulDouble (toDouble 1048576) (toDouble 1048576)))
    (mulDouble (toDouble 8192) (toDouble 8192)))) = _
  rw [hc _ (by norm_num), hc _ (by norm_num), hc _ (by norm_num), h1, h2, h3, h4, h5,
    vnl_math_sqrt_near_square]
  unfold castToComponent
  norm_num

/-- C12 as stated fails for wide component types. The pixel `(2 ^ 53 + 1, 0, 0)`
of 64-bit components has norm `2 ^ 53 + 1`, which fits, and scalar value
`2 ^ 53`: the first cast to double loses the last bit, so the single non-zero
component is not returned and the sum of squares is not below `(s + 1) ^ 2`.
The 32-bit pixel `nearSquarePixel` has the scalar value `2 ^ 26 + 1`, whose
square exceeds the sum of squares. -/
theorem GetScalarValue_counterexample :
    (∀ i, widePixel.data i < 2 ^ 64)
      ∧ widePixel.data 1 = 0 ∧ widePixel.data 2 = 0
      ∧ GetScalarValue 64 widePixel ≠ some (widePixel.data 0)
      ∧ (¬ ∃ s, GetScalarValue 64 widePixel = some s
          ∧ s * s ≤ widePixel.data 0 * widePixel.data 0 + widePixel.data 1 * widePixel.data 1
              + widePixel.data 2 * widePixel.data 2
          ∧ widePixel.data 0 * widePixel.data 0 + widePixel.data 1 * widePixel.data 1
              + widePixel.data 2 * widePixel.data 2 < (s + 1) * (s + 1))
      ∧ (∀ i, nearSquarePixel.data i < 2 ^ 32)
      ∧ (¬ ∃ s, GetScalarValue 32 nearSquarePixel = some s
          ∧ s * s ≤ nearSquarePixel.data 0 * nearSquarePixel.data 0
              + nearSquarePixel.data 1 * nearSquarePixel.data 1
              + nearSquarePixel.data 2 * nearSquarePixel.data 2
          ∧ nearSquarePixel.data 0 * nearSquarePixel.data 0
              + nearSquarePixel.data 1 * nearSquarePixel.data 1
              + nearSquarePixel.data 2 * nearSquarePixel.data 2 < (s + 1) * (s + 1)) := by
  have hw : ∀ i, widePixel.data i = ![9007199254740993, 0, 0] i := fun _ => rfl
  have hn : ∀ i, nearSquarePixel.data i = ![67100672, 1048576, 8192] i := fun _ => rfl
  refine ⟨?_, rfl, rfl, ?_, ?_, ?_, ?_⟩
  · intro i
    rw [hw]
    fin_cases i <;> simp
  · rw [GetScalarValue_widePixel, hw 0]
    simp
  · rintro ⟨s, hs, _, hlt⟩
    rw [GetScalarValue_widePixel] at hs
    cases hs
    rw [hw 0, hw 1, hw 2] at hlt
    simp at hlt
  · intro i
    rw [hn]
    fin_cases i <;> simp
  · rintro ⟨s, hs, hle, _⟩
    rw [GetScalarValue_nearSquarePixel] at hs
    cases hs
    rw [hn 0, hn 1, hn 2] at hle
    simp at hle

/-- C12, amended: for a pixel of an unsigned integer component type whose squares
add up to less than `2 ^ 52`, as they do for every pixel of 8-bit or 16-bit
components, and whose norm fits the component type, the scalar value `s` is
the truncated Euclidean norm, `s * s ≤ r * r + g * g + b * b < (s + 1) * (s + 1)`.
In particular the default-constructed pixel gives 0, such a pixel with a single
non-zero component gives that component, and `(3, 4, 0)` gives 5. -/
theorem GetScalarValue_truncated_norm (bits : Nat) (p : RGBPixel Nat)
    (hsmall : p.data 0 * p.data 0 + p.data 1 * p.data 1 + p.data 2 * p.data 2 < 2 ^ 52)
    (hfit : p.data 0 * p.data 0 + p.data 1 * p.data 1 + p.data 2 * p.data 2
      < 2 ^ bits * 2 ^ bits) :
    (∃ s, GetScalarValue bits p = some s
        ∧ s * s ≤ p.data 0 * p.data 0 + p.data 1 * p.data 1 + p.data 2 * p.data 2
        ∧ p.data 0 * p.data 0 + p.data 1 * p.data 1 + p.data 2 * p.data 2 < (s + 1) * (s + 1))
      ∧ GetScalarValue bits construct = some 0
      ∧ (p.data 1 = 0 → p.data 2 = 0 → GetScalarValue bits p = some (p.data 0))
      ∧ (p.data 0 = 0 → p.data 2 = 0 → GetScalarValue bits p = some (p.data 1))
      ∧ (p.data 0 = 0 → p.data 1 = 0 → GetScalarValue bits p = some (p.data 2))
      ∧ (p.data 0 = 3 → p.data 1 = 4 → p.data 2 = 0 → GetScalarValue bits p = some 5) := by
  have hval := GetScalarValue_eq_sqrt bits p hsmall hfit
  refine ⟨⟨_, hval, Nat.sqrt_le _, Nat.lt_succ_sqrt _⟩, ?_, ?_, ?_, ?_, ?_⟩
  · have h0 := GetScalarValue_eq_sqrt bits (construct : RGBPixel Nat)
      (by show (0 : Nat) * 0 + 0 * 0 + 0 * 0 < 2 ^ 52; norm_num)
      (by show (0 : Nat) * 0 + 0 * 0 + 0 * 0 < 2 ^ bits * 2 ^ bits; positivity)
    rw [h0]
    show some (Nat.sqrt ((0 : Nat) * 0 + 0 * 0 + 0 * 0)) = some 0
    simp
  · intro h1 h2
    rw [hval, h1, h2]
    simp [Nat.sqrt_eq]
  · intro h0 h2
    rw [hval, h0, h2]
    simp [Nat.sqrt_eq]
  · intro h0 h1
    rw [hval, h0, h1]
    simp [Nat.sqrt_eq]
  · intro h0 h1 h2
    rw [hval, h0, h1, h2]
    have : Nat.sqrt (3 * 3 + 4 * 4 + 0 * 0) = 5 := by
      symm
      rw [Nat.eq_sqrt]
      constructor <;> norm_num
    rw [this]

/-- The amended C12 at the pixel `(3, 4, 0)` of 16-bit components. -/
theorem GetScalarValue_truncated_norm_witness :
    pythagoreanPixel.data 0 * pythagoreanPixel.data 0
        + pythagoreanPixel.data 1 * pythagoreanPixel.data 1
        + pythagoreanPixel.data 2 * pythagoreanPixel.data 2 < 2 ^ 52
      ∧ GetScalarValue 16 pythagoreanPixel = some 5 :=
  ⟨by decide,
    (GetScalarValue_truncated_norm 16 pythagoreanPixel (by decide) (by decide)).2.2.2.2.2
      rfl rfl rfl⟩

/-- Every pixel of an unsigned component type of at most 16 bits has squares that
add up to less than `2 ^ 52`. -/
theorem sum_squares_small (bits : Nat) (hbits : bits ≤ 16) (p : RGBPixel Nat)
    (hp : ∀ i, p.data i < 2 ^ bits) :
    p.data 0 * p.data 0 + p.data 1 * p.data 1 + p.data 2 * p.data 2 < 2 ^ 52 := by
  have h16 : (2 : Nat) ^ bits ≤ 2 ^ 16 := Nat.pow_le_pow_right (by norm_num) hbits
  have hsq : ∀ i, p.data i * p.data i < 2 ^ 32 := by
    intro i
    have := hp i
    have h1 : p.data i < 2 ^ 16 := lt_of_lt_of_le this h16
    calc p.data i * p.data i < 2 ^ 16 * 2 ^ 16 := Nat.mul_self_lt_mul_self h1
      _ = 2 ^ 32 := by norm_num
  have h0 := hsq 0
  have h1 := hsq 1
  have h2 := hsq 2
  have : (2 : Nat) ^ 32 + 2 ^ 32 + 2 ^ 32 < 2 ^ 52 := by norm_num
  omega

end RGBPixel

end itk
